import Mathlib

/-!
Verification of the IEPY core (iepy/core.py, iepy/models.py) against its
natural-language specification.  The Python data model and algorithms are
shallowly embedded as executable Lean definitions; scores are rationals,
token offsets are integers (Python ints), and fallible code returns
`Except`/`Option`.
-/

namespace Iepy

/-- An abstract entity (`iepy.models.Entity`): identity is `(kind, key)`;
`canonical_form` is display only.  Mongoengine documents carry a database
primary key, modelled by the `id` field; `SortableDocumentMixin` orders
documents by that id. -/
structure Entity where
  id : Nat
  kind : String
  key : String
  canonical_form : String
deriving DecidableEq, Repr

/-- An entity occurrence inside a document (`iepy.models.EntityOccurrence`):
half-open token offsets relative to the document start. -/
structure EntityOccurrence where
  entity : Entity
  offset : Int
  offset_end : Int
  aliasText : String  -- source field name: alias (a Lean keyword)
deriving DecidableEq, Repr

/-- An entity occurrence copied into a segment (`iepy.models.EntityInSegment`):
offsets are relative to the segment start. -/
structure EntityInSegment where
  key : String
  canonical_form : String
  kind : String
  offset : Int
  offset_end : Int
  aliasText : String  -- source field name: alias (a Lean keyword)
deriving DecidableEq, Repr

/-- A text segment (`iepy.models.TextSegment`).  The document reference is
not needed by any claim and the raw text is kept as a character list. -/
structure TextSegment where
  text : List Char
  offset : Nat
  tokens : List String
  postags : List String
  entities : List EntityInSegment
  sentences : List Int
deriving DecidableEq, Repr

/-- A fact triple (`iepy.core.Fact = namedtuple("Fact", "e1 relation e2")`). -/
structure Fact where
  e1 : Entity
  relation : String
  e2 : Entity
deriving DecidableEq, Repr

/-- Evidence (`iepy.core.Evidence`): a fact, an optional segment and the two
optional occurrence indices into `segment.entities`. -/
structure Evidence where
  fact : Fact
  segment : Option TextSegment
  o1 : Option Nat
  o2 : Option Nat
deriving DecidableEq, Repr

/-- Python `abs` on a rational. -/
def rabs (x : ℚ) : ℚ := if x < 0 then -x else x

/-- `iepy.core.certainty`: `0.5 + abs(p - 0.5)` for a known score, `0.5` for
`None`. -/
def certainty (p : Option ℚ) : ℚ :=
  match p with
  | some x => 1/2 + rabs (x - 1/2)
  | none => 1/2

/-- A Knowledge mapping (`iepy.core.Knowledge`, a `dict` from Evidence to a
score in `[0,1]` or `None`), embedded as an association list with the dict's
insertion order; keys are unique in every mapping the pipeline builds. -/
def Knowledge : Type := List (Evidence × Option ℚ)

/-- Comparison of two `Entity` database documents: mongoengine compares and
equates persisted documents by primary key (`SortableDocumentMixin`). -/
def entityCmp (a b : Entity) : Ordering := compare a.id b.id

/-- Comparison of two `Fact` namedtuples: Python tuple comparison, field by
field (`e1`, `relation`, `e2`). -/
def factCmp (f g : Fact) : Ordering :=
  (entityCmp f.e1 g.e1).then ((compare f.relation g.relation).then (entityCmp f.e2 g.e2))

/-- Comparison of two optional occurrence indices, `None` first. -/
def optNatCmp (a b : Option Nat) : Ordering :=
  match a, b with
  | none, none => Ordering.eq
  | none, some _ => Ordering.lt
  | some _, none => Ordering.gt
  | some i, some j => compare i j

/-- Comparison of two optional segments, `None` first.  Persisted segments
compare by database id; no claim exercises the `some`/`some` case, so two
present segments are left unordered here. -/
def optSegCmp (a b : Option TextSegment) : Ordering :=
  match a, b with
  | none, none => Ordering.eq
  | none, some _ => Ordering.lt
  | some _, none => Ordering.gt
  | some _, some _ => Ordering.eq

/-- Comparison of two `Evidence` namedtuples: Python tuple comparison over
`(fact, segment, o1, o2)`. -/
def evidenceCmp (a b : Evidence) : Ordering :=
  (factCmp a.fact b.fact).then
    ((optSegCmp a.segment b.segment).then
      ((optNatCmp a.o1 b.o1).then (optNatCmp a.o2 b.o2)))

/-- The sort key used by `Knowledge.by_certainty`:
`(certainty(self[e]) if self[e] is not None else 0, e)`. -/
def byCertaintyKey (x : Evidence × Option ℚ) : ℚ × Evidence :=
  (if x.2.isSome then certainty x.2 else 0, x.1)

/-- Strict descending-order test on sort keys: `a` must come strictly after
`b` in the descending output.  Python tuple comparison: `a < b` iff
`a.1 < b.1`, or `a.1 == b.1` (expressed as neither side smaller) and the
evidences compare below. -/
def keyLtb (a b : ℚ × Evidence) : Bool :=
  a.1 < b.1 || (!(b.1 < a.1) && evidenceCmp a.2 b.2 == Ordering.lt)

/-- One step of a stable descending insertion sort by `keyf`: `x` is placed
before the first element with a strictly smaller key, after equal keys. -/
def insertDescBy (keyf : α → ℚ × Evidence) (x : α) : List α → List α
  | [] => [x]
  | y :: ys => if keyLtb (keyf y) (keyf x) then x :: y :: ys else y :: insertDescBy keyf x ys

/-- Stable descending sort by `keyf`, the semantics of Python
`sorted(items, key=keyf, reverse=True)`. -/
def sortedDescBy (keyf : α → ℚ × Evidence) (l : List α) : List α :=
  l.foldl (fun acc x => insertDescBy keyf x acc) []

/-- `Knowledge.by_certainty`: all items sorted with
`key=lambda e_s: (certainty(self[e]) if self[e] is not None else 0, e)` and
`reverse=True`.  (`self[e]` is the item's own score.) -/
def by_certainty (kn : Knowledge) : List (Evidence × Option ℚ) :=
  sortedDescBy byCertaintyKey kn

/-- Modelled from the spec: the ranking `by_certainty` is documented to
compute — "a score of 'None' is considered as 0.5 here", i.e. the sort key of
every item is `(certainty(score), e)`, so an unknown score is ranked exactly
as a score of `0.5`.  Used only to compare against `by_certainty`. -/
def by_certainty_noneAs05 (kn : Knowledge) : List (Evidence × Option ℚ) :=
  sortedDescBy (fun x => (certainty x.2, x.1)) kn

/-- `Knowledge.per_relation`: the sub-mapping for one relation label. -/
def per_relation_of (kn : Knowledge) (rel : String) : Knowledge :=
  kn.filter (fun x => x.1.fact.relation == rel)

/-!
### `iepy.models._interval_offsets`

The three `while` loops of the narrowing binary search are embedded as three
recursive functions; list indexing `a[mid]` is `a.getD mid dflt` (every
access the source performs is in range, so the default never matters).
-/

/-- The first loop of `_interval_offsets`: narrow `[lo, hi)` until either an
index `mid` with `xl <= key(a[mid]) < xr` is found (Python `break`, third
component is that `mid`) or the range is empty (third component is the stale
`mid` of the last executed iteration, as in the source). -/
def ivMain (key : α → Int) (dflt : α) (a : List α) (xl xr : Int) (lo hi m0 : Nat) :
    Nat × Nat × Nat :=
  if lo < hi then
    if xl ≤ key (a.getD ((lo + hi) / 2) dflt) ∧ xr ≤ key (a.getD ((lo + hi) / 2) dflt) then
      ivMain key dflt a xl xr lo ((lo + hi) / 2) ((lo + hi) / 2)
    else if key (a.getD ((lo + hi) / 2) dflt) < xl ∧ key (a.getD ((lo + hi) / 2) dflt) < xr then
      ivMain key dflt a xl xr ((lo + hi) / 2 + 1) hi ((lo + hi) / 2)
    else (lo, hi, (lo + hi) / 2)
  else (lo, hi, m0)
termination_by hi - lo
decreasing_by all_goals omega

/-- The second loop of `_interval_offsets`: bisect the left boundary, the
first index whose key is `>= xl`. -/
def ivLeft (key : α → Int) (dflt : α) (a : List α) (xl : Int) (llo lhi : Nat) : Nat :=
  if llo < lhi then
    if key (a.getD ((llo + lhi) / 2) dflt) < xl then
      ivLeft key dflt a xl ((llo + lhi) / 2 + 1) lhi
    else
      ivLeft key dflt a xl llo ((llo + lhi) / 2)
  else llo
termination_by lhi - llo
decreasing_by all_goals omega

/-- The third loop of `_interval_offsets`: bisect the right boundary, the
first index whose key is `>= xr`. -/
def ivRight (key : α → Int) (dflt : α) (a : List α) (xr : Int) (rlo rhi : Nat) : Nat :=
  if rlo < rhi then
    if xr ≤ key (a.getD ((rlo + rhi) / 2) dflt) then
      ivRight key dflt a xr rlo ((rlo + rhi) / 2)
    else
      ivRight key dflt a xr ((rlo + rhi) / 2 + 1) rhi
  else rlo
termination_by rhi - rlo
decreasing_by all_goals omega

/-- `iepy.models._interval_offsets(a, xl, xr, lo=0, hi=None, key=...)` with
`hi` already defaulted to `len(a)` by the caller.  `none` models the
`ValueError` raised when `xl > xr` (`lo` is a `Nat`, so `lo < 0` cannot
arise).  The two `assert` statements of the source are sanity checks and are
not part of the returned value. -/
def interval_offsets (key : α → Int) (dflt : α) (a : List α) (xl xr : Int)
    (lo hi : Nat) : Option (Nat × Nat) :=
  if xl > xr then none
  else if lo = hi then some (lo, hi)
  else
    let t := ivMain key dflt a xl xr lo hi 0
    some (ivLeft key dflt a xl t.1 t.2.2, ivRight key dflt a xr t.2.2 t.2.1)

/-!
### Documents and segment construction (`iepy.models`)
-/

/-- The preprocessing stages (`iepy.models.PreProcessSteps`). -/
inductive PreProcessSteps where
  | tokenization
  | sentencer
  | tagging
  | ner
  | segmentation
deriving DecidableEq, Repr

/-- Errors that `IEDocument.set_preprocess_result` can raise.  The Python
`InvalidPreprocessSteps` branch (a non-`PreProcessSteps` argument) is
unrepresentable in the typed embedding; `keyError` models the `KeyError`
raised by `preprocess_fields_mapping[step]` for the `segmentation` member,
which has no mapping entry. -/
inductive PpError where
  | valueError (msg : String)
  | indexError
  | keyError
deriving DecidableEq, Repr

/-- An `iepy.models.IEDocument`: parallel token arrays, sentence boundary
token offsets, entity occurrences sorted by start offset, and the set of
completed preprocessing steps (`preprocess_metadata` keeps step names; the
wall-clock `done_at` timestamps are not modelled). -/
structure IEDocument where
  text : List Char
  tokens : List String
  offsets : List Nat
  postags : List String
  sentences : List Int
  entities : List EntityOccurrence
  preprocess_metadata : List String
deriving DecidableEq, Repr

/-- A junk occurrence for out-of-range `getD` accesses (never reached). -/
def dfltOcc : EntityOccurrence :=
  { entity := { id := 0, kind := "", key := "", canonical_form := "" }
    offset := 0, offset_end := 0, aliasText := "" }

/-- `IEDocument.flag_preprocess_done`: record the step name as done. -/
def flag_preprocess_done (doc : IEDocument) (stepName : String) : IEDocument :=
  { doc with preprocess_metadata := doc.preprocess_metadata.insert stepName }

/-- The payload type each preprocessing step stores
(`IEDocument.preprocess_fields_mapping`): tokenization writes the zipped
`(offsets, tokens)` pair lists, the sentencer writes the sentence boundary
list, tagging the POS-tag list, NER the occurrence list.  `segmentation` has
no mapping entry. -/
def PayloadType : PreProcessSteps → Type
  | .tokenization => List (Nat × String)
  | .sentencer => List Int
  | .tagging => List String
  | .ner => List EntityOccurrence
  | .segmentation => Unit

/-- `IEDocument.set_preprocess_result`: validate, then write the result into
the step's field and flag the step done.  The checks run in source order;
for the sentencer they are: every element is an int (guaranteed by the
payload type here), `sorted(result) == result`, no duplicates,
`result[0] == 0` (an `IndexError` on an empty list), and
`result[-1] == len(self.tokens)`.  For tagging: `len(result)` must equal
`len(self.tokens)`.  All `setattr` writes happen only after validation. -/
def set_preprocess_result (doc : IEDocument) (step : PreProcessSteps)
    (result : PayloadType step) : Except PpError IEDocument :=
  match step, result with
  | .sentencer, l =>
    if ¬ List.Chain' (· ≤ ·) l then
      Except.error (PpError.valueError "Sentencer result shall be ordered.")
    else if ¬ l.Nodup then
      Except.error (PpError.valueError "Sentencer result shall not contain duplicates.")
    else
      match l with
      | [] => Except.error PpError.indexError
      | x :: xs =>
        if x ≠ 0 then
          Except.error (PpError.valueError "Sentencer result must start with 0.")
        else if (x :: xs).getLast (by simp) ≠ (doc.tokens.length : Int) then
          Except.error (PpError.valueError "Sentencer result must end with token count.")
        else
          Except.ok (flag_preprocess_done { doc with sentences := l } "sentencer")
  | .tagging, l =>
    if l.length ≠ doc.tokens.length then
      Except.error (PpError.valueError "Tagging result must have same cardinality than tokens")
    else
      Except.ok (flag_preprocess_done { doc with postags := l } "tagging")
  | .tokenization, l =>
    Except.ok (flag_preprocess_done
      { doc with offsets := l.map Prod.fst, tokens := l.map Prod.snd } "tokenization")
  | .ner, l =>
    Except.ok (flag_preprocess_done { doc with entities := l } "ner")
  | .segmentation, _ => Except.error PpError.keyError

/-- `TextSegment.build(document, token_offset, token_offset_end)`: slice the
token/POS/char arrays, select the entity occurrences and sentence boundaries
that fall in the token range via `_interval_offsets`, and rebase their
offsets to the segment start.  `none` models the `ValueError` that
`_interval_offsets` raises when `token_offset > token_offset_end`. -/
def TextSegment.build (doc : IEDocument) (token_offset token_offset_end : Nat) :
    Option TextSegment :=
  match interval_offsets (fun o => o.offset) dfltOcc doc.entities
      (token_offset : Int) (token_offset_end : Int) 0 doc.entities.length with
  | none => none
  | some (l1, r1) =>
    match interval_offsets (fun x => x) 0 doc.sentences
        (token_offset : Int) (token_offset_end : Int) 0 doc.sentences.length with
    | none => none
    | some (l2, r2) =>
      let text_start := if token_offset < doc.offsets.length then
        doc.offsets.getD token_offset 0 else doc.text.length
      let text_end := if token_offset_end < doc.offsets.length then
        doc.offsets.getD token_offset_end 0 else doc.text.length
      some
        { text := (doc.text.drop text_start).take (text_end - text_start)
          offset := token_offset
          tokens := (doc.tokens.drop token_offset).take (token_offset_end - token_offset)
          postags := (doc.postags.drop token_offset).take (token_offset_end - token_offset)
          entities := ((doc.entities.drop l1).take (r1 - l1)).map (fun o =>
            { key := o.entity.key
              canonical_form := o.entity.canonical_form
              kind := o.entity.kind
              offset := o.offset - (token_offset : Int)
              offset_end := o.offset_end - (token_offset : Int)
              aliasText := o.aliasText })
          sentences := ((doc.sentences.drop l2).take (r2 - l2)).map
            (fun o => o - (token_offset : Int)) }

/-- `TextSegment.entity_occurrence_pairs(e1, e2)`: all ordered index pairs
`(l, r)` with `entities[l]` an occurrence of `e1`, `entities[r]` one of
`e2`, and `l != r` (`EntityInSegment.is_entity` compares key and kind). -/
def entity_occurrence_pairs (s : TextSegment) (e1 e2 : Entity) : List (Nat × Nat) :=
  let left := (s.entities.enum.filter (fun p => p.2.key == e1.key && p.2.kind == e1.kind)).map
    Prod.fst
  let right := (s.entities.enum.filter (fun p => p.2.key == e2.key && p.2.kind == e2.kind)).map
    Prod.fst
  (left.product right).filter (fun p => p.1 ≠ p.2)

/-- `TextSegment.kind_occurrence_pairs(lkind, rkind)`: all ordered index
pairs of occurrences of the two kinds, excluding pairing an occurrence with
itself. -/
def kind_occurrence_pairs (s : TextSegment) (lkind rkind : String) : List (Nat × Nat) :=
  let left := (s.entities.enum.filter (fun p => p.2.kind == lkind)).map Prod.fst
  let right := (s.entities.enum.filter (fun p => p.2.kind == rkind)).map Prod.fst
  (left.product right).filter (fun p => p.1 ≠ p.2)

/-!
### `IEDocument.build_contextual_segments`

The loop is embedded as a recursion that returns the trace of candidate
windows: each entry is `(start, end, materialized)` where `materialized`
records whether `TextSegment.build` was called for the window.  (The claims
are about the window bounds and the deduplication decision, not about the
stored segments themselves.)
-/

/-- The first boundary-correction loop: walk `j` from `i` downwards while
`entities[j].offset_end > start`, lowering `start` to `entities[j].offset`;
mirrors `while j >= 0 and self.entities[j].offset_end > start`. -/
def widenStart (ents : List EntityOccurrence) : Nat → Int → Int
  | 0, start =>
    if (ents.getD 0 dfltOcc).offset_end > start then min start (ents.getD 0 dfltOcc).offset
    else start
  | j + 1, start =>
    if (ents.getD (j + 1) dfltOcc).offset_end > start then
      widenStart ents j (min start (ents.getD (j + 1) dfltOcc).offset)
    else start

/-- The second boundary-correction loop: walk `j` from `i` upwards while
`j < L and self.entities[j].offset < end`, raising `end` to
`entities[j].offset_end`. -/
def widenEnd (ents : List EntityOccurrence) (j : Nat) (e : Int) : Int :=
  if j < ents.length ∧ (ents.getD j dfltOcc).offset < e then
    widenEnd ents (j + 1) (max e (ents.getD j dfltOcc).offset_end)
  else e
termination_by ents.length - j
decreasing_by simp_wf; omega

/-- The index of the rightmost entity of the window around the close pair at
`i`: `i + 2` when a third occurrence is within `d` of the middle one
(one-step extension, never chained), else `i + 1`. -/
def rightIdx (doc : IEDocument) (d : Int) (i : Nat) : Nat :=
  if i + 2 < doc.entities.length ∧
      (doc.entities.getD (i + 2) dfltOcc).offset -
        (doc.entities.getD (i + 1) dfltOcc).offset_end < d
    then i + 2 else i + 1

/-- The boundary-corrected start of the window around the close pair at `i`:
`max(0, left.offset - d)` widened by the first correction loop. -/
def windowStart (doc : IEDocument) (d : Int) (i : Nat) : Int :=
  widenStart doc.entities i (max 0 ((doc.entities.getD i dfltOcc).offset - d))

/-- The boundary-corrected end of the window around the close pair at `i`:
`min(right.offset_end + d, len(tokens))` widened by the second correction
loop. -/
def windowEnd (doc : IEDocument) (d : Int) (i : Nat) : Int :=
  widenEnd doc.entities i
    (min ((doc.entities.getD (rightIdx doc d i) dfltOcc).offset_end + d)
      (doc.tokens.length : Int))

/-- The main loop of `build_contextual_segments(d)`: returns the candidate
window trace.  `lstart`/`lend` carry the bounds of the previous candidate
window (initially `-1, -1`); a window is materialized unless
`end == lend and start >= lstart`. -/
def ctxLoop (doc : IEDocument) (d : Int) (i : Nat) (lstart lend : Int) :
    List (Int × Int × Bool) :=
  if i + 1 < doc.entities.length then
    if (doc.entities.getD (i + 1) dfltOcc).offset - (doc.entities.getD i dfltOcc).offset_end ≥ d
    then
      ctxLoop doc d (i + 1) lstart lend
    else
      (windowStart doc d i, windowEnd doc d i,
        !(windowEnd doc d i = lend ∧ windowStart doc d i ≥ lstart)) ::
        ctxLoop doc d (i + 1) (windowStart doc d i) (windowEnd doc d i)
  else []
termination_by doc.entities.length - i
decreasing_by all_goals omega

/-- `IEDocument.build_contextual_segments(d)` as its candidate window trace:
entries `(start, end, materialized)` in construction order. -/
def build_contextual_segments (doc : IEDocument) (d : Int) : List (Int × Int × Bool) :=
  ctxLoop doc d 0 (-1) (-1)

/-!
### The bootstrapped pipeline (`iepy.core.BootstrappedIEPipeline`)

The document/segment store and the entity cache are external collaborators
(MongoDB queries); they enter as function parameters.  Scores inside the
running pipeline are always numeric, so these stages use plain rationals.
-/

instance : Inhabited EntityInSegment :=
  ⟨{ key := "", canonical_form := "", kind := "", offset := 0, offset_end := 0,
     aliasText := "" }⟩

/-- The invariants `iepy.core.Evidence` documents for itself:
`segment == None iff o1 == None iff o2 == None`, and a set occurrence index
points inside the segment at an occurrence whose kind and key match the
corresponding abstract entity of the fact. -/
def evidenceInvariant (e : Evidence) : Prop :=
  (e.segment = none ↔ e.o1 = none) ∧ (e.segment = none ↔ e.o2 = none) ∧
  (∀ i, e.o1 = some i → ∃ s, e.segment = some s ∧ i < s.entities.length ∧
    (s.entities.getD i default).kind = e.fact.e1.kind ∧
    (s.entities.getD i default).key = e.fact.e1.key) ∧
  (∀ i, e.o2 = some i → ∃ s, e.segment = some s ∧ i < s.entities.length ∧
    (s.entities.getD i default).kind = e.fact.e2.kind ∧
    (s.entities.getD i default).key = e.fact.e2.key)

/-- The seed knowledge built in `BootstrappedIEPipeline.__init__`:
`{Evidence(f, None, None, None): 1 for f in seed_facts}`. -/
def seedKnowledge (seed_facts : List Fact) : List (Evidence × ℚ) :=
  seed_facts.map (fun f => ({ fact := f, segment := none, o1 := none, o2 := none }, 1))

/-- The evidence set built by `BootstrappedIEPipeline.start()`: for every
seed fact, every store segment containing both its entities
(`db_con.segments.segments_with_both_entities`) and every ordered occurrence
index pair, an `Evidence` at score `0.5`. -/
def startEvidences (know : List (Evidence × ℚ))
    (segments_with_both_entities : Entity → Entity → List TextSegment) :
    List (Evidence × ℚ) :=
  (know.map (fun x => x.1.fact)).flatMap (fun fact =>
    (segments_with_both_entities fact.e1 fact.e2).flatMap (fun segment =>
      (entity_occurrence_pairs segment fact.e1 fact.e2).map (fun p =>
        ({ fact := fact, segment := some segment, o1 := some p.1, o2 := some p.2 },
          (1 : ℚ)/2))))

/-- The candidate evidence list one relation contributes in
`BootstrappedIEPipeline.extract_facts`: for every store segment containing
both kinds and every ordered kind-occurrence index pair, an `Evidence` whose
fact's entities come from `db.get_entity` applied to the occurrence's kind
and key. -/
def extractFactsEvidences (rel : String) (lkind rkind : String)
    (segments_with_both_kinds : String → String → List TextSegment)
    (get_entity : String → String → Entity) : List Evidence :=
  (segments_with_both_kinds lkind rkind).flatMap (fun segment =>
    (kind_occurrence_pairs segment lkind rkind).map (fun p =>
      { fact :=
          { e1 := get_entity (segment.entities.getD p.1 default).kind
              (segment.entities.getD p.1 default).key
            relation := rel
            e2 := get_entity (segment.entities.getD p.2 default).kind
              (segment.entities.getD p.2 default).key }
        segment := some segment, o1 := some p.1, o2 := some p.2 }))

/-- `BootstrappedIEPipeline.generate_questions`: keep every item not already
answered by the human. -/
def generate_questions (answered : Evidence → Bool) (evidence : List (Evidence × ℚ)) :
    List (Evidence × ℚ) :=
  evidence.filter (fun x => !answered x.1)

/-- Python `dict` lookup on an association list: the first binding wins (the
lists the pipeline builds have unique keys). -/
def alookup {α β : Type} [DecidableEq α] (l : List (α × β)) (k : α) : Option β :=
  match l with
  | [] => none
  | p :: rest => if p.1 = k then some p.2 else alookup rest k

/-- Python `dict.__setitem__`: overwrite the binding if the key is present,
append it otherwise. -/
def dictInsert {α β : Type} [DecidableEq α] (l : List (α × β)) (k : α) (v : β) :
    List (α × β) :=
  if l.any (fun p => p.1 = k) then
    l.map (fun p => if p.1 = k then (k, v) else p)
  else l ++ [(k, v)]

/-- Python `dict.update`: insert the items left to right. -/
def dictUpdate {α β : Type} [DecidableEq α] (l : List (α × β)) (items : List (α × β)) :
    List (α × β) :=
  items.foldl (fun acc x => dictInsert acc x.1 x.2) l

/-- `BootstrappedIEPipeline.filter_facts`: merge every item whose score
exceeds `fact_threshold` into the pipeline knowledge
(`self.knowledge.update(...)`) and return the incoming facts unchanged. -/
def filter_facts (fact_threshold : ℚ) (knowledge facts : List (Evidence × ℚ)) :
    (List (Evidence × ℚ)) × (List (Evidence × ℚ)) :=
  (dictUpdate knowledge (facts.filter (fun x => x.2 > fact_threshold)), facts)

/-- One iteration of the relation-description loop of
`BootstrappedIEPipeline.__init__`: if the relation is already present with a
different kind pair, raise `ValueError("Ambiguous kinds ...")`; otherwise
record `relation -> (e1.kind, e2.kind)`. -/
def relStep (table : List (String × String × String)) (f : Fact) :
    Except String (List (String × String × String)) :=
  match alookup table f.relation with
  | some p =>
    if p ≠ (f.e1.kind, f.e2.kind) then Except.error "Ambiguous kinds for relation"
    else Except.ok (dictInsert table f.relation (f.e1.kind, f.e2.kind))
  | none => Except.ok (dictInsert table f.relation (f.e1.kind, f.e2.kind))

/-- The relation-description loop of `BootstrappedIEPipeline.__init__`.
(The loop iterates over the seed-knowledge dict keys; duplicate seed facts
collapse to one key, which cannot affect the conflict check or the
resulting table.) -/
def buildRelations (seed_facts : List Fact) : Except String (List (String × String × String)) :=
  seed_facts.foldlM relStep []

/-!
### Predicates and concrete instances used by the claims
-/

/-- The window splits entity occurrence `k` at position `v`: the occurrence
starts strictly before `v` and ends strictly after it. -/
def straddles (ents : List EntityOccurrence) (k : Nat) (v : Int) : Prop :=
  (ents.getD k dfltOcc).offset < v ∧ v < (ents.getD k dfltOcc).offset_end

/-- The deduplication behaviour `build_contextual_segments` actually
implements, as a relation between a candidate window and the immediately
preceding one: the current window is discarded exactly when it ends where
the previous one ends and starts no earlier, and every discarded window is
contained in the previous one. -/
def dedupOk (prev cur : Int × Int × Bool) : Prop :=
  (cur.2.2 = false ↔ (cur.2.1 = prev.2.1 ∧ prev.1 ≤ cur.1)) ∧
  (cur.2.2 = false → (prev.1 ≤ cur.1 ∧ cur.2.1 ≤ prev.2.1))

/-- Shorthand for a document entity occurrence in the examples. -/
def mkOcc (a b : Int) : EntityOccurrence :=
  { entity := { id := 0, kind := "person", key := "k", canonical_form := "K" }
    offset := a, offset_end := b, aliasText := "" }

/-- An empty base document for the examples. -/
def exDocBase : IEDocument :=
  { text := [], tokens := [], offsets := [], postags := [], sentences := []
    entities := [], preprocess_metadata := [] }

/-- Counterexample document for C3: a long occurrence `[10, 90)` with two
nested short occurrences `[20, 21)` and `[22, 23)`. -/
def exDoc3 : IEDocument :=
  { exDocBase with
    tokens := List.replicate 100 "t"
    entities := [mkOcc 10 90, mkOcc 20 21, mkOcc 22 23] }

/-- Counterexample document for C4: a long occurrence `[0, 60)` containing
`[20, 21)`, `[40, 41)` and `[42, 43)`. -/
def exDoc4 : IEDocument :=
  { exDocBase with
    tokens := List.replicate 100 "t"
    entities := [mkOcc 0 60, mkOcc 20 21, mkOcc 40 41, mkOcc 42 43] }

/-- Witness document for C4: two disjoint occurrences `[0, 1)`, `[2, 3)`. -/
def exDocW : IEDocument :=
  { exDocBase with
    tokens := List.replicate 10 "t"
    entities := [mkOcc 0 1, mkOcc 2 3] }

/-- Witness document for C9: four occurrences sorted by offset. -/
def exDoc9 : IEDocument :=
  { exDocBase with
    tokens := List.replicate 10 "t"
    entities := [mkOcc 0 3, mkOcc 2 4, mkOcc 5 9, mkOcc 7 8] }

/-- Witness document for C8/C10: two tokens, nothing else. -/
def exDoc10 : IEDocument := { exDocBase with tokens := ["a", "b"] }

/-- An entity for the C1 failing input. -/
def exEnt : Entity := { id := 1, kind := "person", key := "p", canonical_form := "P" }

/-- C1 failing input, evidence with the lexicographically larger fact
(relation `"zz"`); its score is `None`. -/
def exEvA : Evidence :=
  { fact := { e1 := exEnt, relation := "zz", e2 := exEnt }
    segment := none, o1 := none, o2 := none }

/-- C1 failing input, evidence with the lexicographically smaller fact
(relation `"aa"`); its score is `0.5`. -/
def exEvB : Evidence :=
  { fact := { e1 := exEnt, relation := "aa", e2 := exEnt }
    segment := none, o1 := none, o2 := none }

/-- The C1 failing Knowledge mapping: `{exEvA: None, exEvB: 0.5}`. -/
def exKn : Knowledge := [(exEvA, none), (exEvB, some (1/2))]

/-- A second entity for the pipeline examples. -/
def exEnt2 : Entity := { id := 2, kind := "location", key := "q", canonical_form := "Q" }

/-- A segment holding one occurrence of each example entity, for the C5
witness. -/
def exSeg : TextSegment :=
  { text := [], offset := 0, tokens := ["a", "b"], postags := ["N", "N"]
    entities :=
      [{ key := "p", canonical_form := "P", kind := "person", offset := 0, offset_end := 1,
         aliasText := "" },
       { key := "q", canonical_form := "Q", kind := "location", offset := 1, offset_end := 2,
         aliasText := "" }]
    sentences := [0] }

/-- A seed fact for the pipeline examples. -/
def exFact : Fact := { e1 := exEnt, relation := "works", e2 := exEnt2 }

/-- A fact with the same relation label as `exFact` but a different entity
kind pair, for the C7 witness. -/
def exFactConflict : Fact := { e1 := exEnt2, relation := "works", e2 := exEnt2 }

/-- A concrete entity store for the C5 witness: returns an entity of the
requested kind and key (`db.get_entity` looks the entity up by exactly
these two fields). -/
def exGetEntity (kind key : String) : Entity :=
  { id := if kind = "person" then 1 else 2, kind := kind, key := key
    canonical_form := key }

/-!
## Theorems

### Correctness of `_interval_offsets`
-/

/-- Invariant-preservation of the first (narrowing) loop of
`_interval_offsets`.  The third returned component is the index Python
leaves in `mid`: on a `break` it lies inside the answer range; otherwise it
is the returned boundary or its predecessor. -/
theorem ivMain_spec {α : Type} (key : α → Int) (dflt : α) (a : List α) (xl xr : Int)
    (hsort : ∀ i j, i ≤ j → j < a.length → key (a.getD i dflt) ≤ key (a.getD j dflt))
    (hxlr : xl ≤ xr) :
    ∀ n lo hi m0, hi - lo ≤ n → lo < hi → hi ≤ a.length →
    (∀ i, i < lo → key (a.getD i dflt) < xl) →
    (∀ i, hi ≤ i → i < a.length → xr ≤ key (a.getD i dflt)) →
    ∀ lo' hi' m, ivMain key dflt a xl xr lo hi m0 = (lo', hi', m) →
    lo ≤ lo' ∧ lo' ≤ hi' ∧ hi' ≤ hi ∧
    (∀ i, i < lo' → key (a.getD i dflt) < xl) ∧
    (∀ i, hi' ≤ i → i < a.length → xr ≤ key (a.getD i dflt)) ∧
    ((lo' ≤ m ∧ m < hi' ∧ xl ≤ key (a.getD m dflt) ∧ key (a.getD m dflt) < xr)
      ∨ (lo' = hi' ∧ (m = lo' ∨ m + 1 = lo'))) := by
  intro n
  induction n with
  | zero =>
    intro lo hi m0 hn hlt
    exact absurd hlt (by omega)
  | succ n ih =>
    intro lo hi m0 hn hlt hhi hpre hpost lo' hi' m heq
    rw [ivMain, if_pos hlt] at heq
    have hmidlo : lo ≤ (lo + hi) / 2 := by omega
    have hmidhi : (lo + hi) / 2 < hi := by omega
    by_cases h1 : xl ≤ key (a.getD ((lo + hi) / 2) dflt) ∧ xr ≤ key (a.getD ((lo + hi) / 2) dflt)
    · rw [if_pos h1] at heq
      by_cases h2 : lo < (lo + hi) / 2
      · have := ih lo ((lo + hi) / 2) ((lo + hi) / 2) (by omega) h2 (by omega) hpre
          (fun i hi1 hi2 => le_trans h1.2 (hsort ((lo + hi) / 2) i hi1 hi2))
          lo' hi' m heq
        exact ⟨this.1, this.2.1, by omega, this.2.2.2.1, this.2.2.2.2.1, this.2.2.2.2.2⟩
      · have hle : (lo + hi) / 2 = lo := by omega
        rw [hle, ivMain, if_neg (lt_irrefl lo)] at heq
        simp only [Prod.mk.injEq] at heq
        obtain ⟨h4, h5, h6⟩ := heq
        subst h4 h5 h6
        refine ⟨le_refl _, le_refl _, by omega, hpre, ?_, Or.inr ⟨rfl, Or.inl rfl⟩⟩
        intro i hi1 hi2
        exact le_trans (hle ▸ h1.2) (hsort lo i hi1 hi2)
    · rw [if_neg h1] at heq
      by_cases h2 : key (a.getD ((lo + hi) / 2) dflt) < xl ∧
          key (a.getD ((lo + hi) / 2) dflt) < xr
      · rw [if_pos h2] at heq
        by_cases h3 : (lo + hi) / 2 + 1 < hi
        · have := ih ((lo + hi) / 2 + 1) hi ((lo + hi) / 2) (by omega) h3 hhi
            (fun i hi1 => lt_of_le_of_lt
              (hsort i ((lo + hi) / 2) (by omega) (by omega)) h2.1)
            hpost lo' hi' m heq
          exact ⟨by omega, this.2.1, this.2.2.1, this.2.2.2.1, this.2.2.2.2.1,
            this.2.2.2.2.2⟩
        · have hle : (lo + hi) / 2 + 1 = hi := by omega
          rw [ivMain, if_neg (show ¬ ((lo + hi) / 2 + 1 < hi) from h3)] at heq
          simp only [Prod.mk.injEq] at heq
          obtain ⟨h4, h5, h6⟩ := heq
          subst h4 h5 h6
          refine ⟨by omega, by omega, le_refl _, ?_, hpost, Or.inr ⟨by omega, Or.inr (by omega)⟩⟩
          intro i hi1
          rcases Nat.lt_or_ge i lo with hc | hc
          · exact hpre i hc
          · exact lt_of_le_of_lt (hsort i ((lo + hi) / 2) (by omega) (by omega)) h2.1
      · rw [if_neg h2] at heq
        simp only [Prod.mk.injEq] at heq
        obtain ⟨h4, h5, h6⟩ := heq
        subst h4 h5 h6
        have hxlv : xl ≤ key (a.getD ((lo + hi) / 2) dflt) := by
          by_contra hc
          push_neg at hc
          exact h2 ⟨hc, lt_of_lt_of_le hc hxlr⟩
        have hvxr : key (a.getD ((lo + hi) / 2) dflt) < xr := by
          by_contra hc
          push_neg at hc
          exact h1 ⟨hxlv, hc⟩
        exact ⟨le_refl _, by omega, le_refl _, hpre, hpost,
          Or.inl ⟨hmidlo, hmidhi, hxlv, hvxr⟩⟩

/-- Correctness of the left-boundary bisection loop of `_interval_offsets`. -/
theorem ivLeft_spec {α : Type} (key : α → Int) (dflt : α) (a : List α) (xl : Int)
    (hsort : ∀ i j, i ≤ j → j < a.length → key (a.getD i dflt) ≤ key (a.getD j dflt)) :
    ∀ n llo lhi, lhi - llo ≤ n → llo ≤ lhi → lhi ≤ a.length →
    (∀ i, i < llo → key (a.getD i dflt) < xl) →
    (∀ i, lhi ≤ i → i < a.length → xl ≤ key (a.getD i dflt)) →
    ∀ L, ivLeft key dflt a xl llo lhi = L →
    llo ≤ L ∧ L ≤ lhi ∧
    (∀ i, i < L → key (a.getD i dflt) < xl) ∧
    (∀ i, L ≤ i → i < a.length → xl ≤ key (a.getD i dflt)) := by
  intro n
  induction n with
  | zero =>
    intro llo lhi hn hle hhi hpre hpost L heq
    have h : llo = lhi := by omega
    rw [ivLeft, if_neg (by omega)] at heq
    subst heq
    exact ⟨le_refl _, by omega, hpre, h ▸ hpost⟩
  | succ n ih =>
    intro llo lhi hn hle hhi hpre hpost L heq
    rw [ivLeft] at heq
    by_cases hlt : llo < lhi
    · rw [if_pos hlt] at heq
      by_cases hv : key (a.getD ((llo + lhi) / 2) dflt) < xl
      · rw [if_pos hv] at heq
        have := ih ((llo + lhi) / 2 + 1) lhi (by omega) (by omega) hhi
          (fun i hi1 => lt_of_le_of_lt (hsort i ((llo + lhi) / 2) (by omega) (by omega)) hv)
          hpost L heq
        exact ⟨by omega, this.2.1, this.2.2⟩
      · rw [if_neg hv] at heq
        push_neg at hv
        have := ih llo ((llo + lhi) / 2) (by omega) (by omega) (by omega) hpre
          (fun i hi1 hi2 => le_trans hv (hsort ((llo + lhi) / 2) i hi1 hi2)) L heq
        exact ⟨this.1, by omega, this.2.2.1, this.2.2.2⟩
    · rw [if_neg hlt] at heq
      subst heq
      have h : llo = lhi := by omega
      exact ⟨le_refl _, by omega, hpre, h ▸ hpost⟩

/-- Correctness of the right-boundary bisection loop of `_interval_offsets`. -/
theorem ivRight_spec {α : Type} (key : α → Int) (dflt : α) (a : List α) (xr : Int)
    (hsort : ∀ i j, i ≤ j → j < a.length → key (a.getD i dflt) ≤ key (a.getD j dflt)) :
    ∀ n rlo rhi, rhi - rlo ≤ n → rlo ≤ rhi → rhi ≤ a.length →
    (∀ i, i < rlo → key (a.getD i dflt) < xr) →
    (∀ i, rhi ≤ i → i < a.length → xr ≤ key (a.getD i dflt)) →
    ∀ R, ivRight key dflt a xr rlo rhi = R →
    rlo ≤ R ∧ R ≤ rhi ∧
    (∀ i, i < R → key (a.getD i dflt) < xr) ∧
    (∀ i, R ≤ i → i < a.length → xr ≤ key (a.getD i dflt)) := by
  intro n
  induction n with
  | zero =>
    intro rlo rhi hn hle hhi hpre hpost R heq
    have h : rlo = rhi := by omega
    rw [ivRight, if_neg (by omega)] at heq
    subst heq
    exact ⟨le_refl _, by omega, hpre, h ▸ hpost⟩
  | succ n ih =>
    intro rlo rhi hn hle hhi hpre hpost R heq
    rw [ivRight] at heq
    by_cases hlt : rlo < rhi
    · rw [if_pos hlt] at heq
      by_cases hv : xr ≤ key (a.getD ((rlo + rhi) / 2) dflt)
      · rw [if_pos hv] at heq
        have := ih rlo ((rlo + rhi) / 2) (by omega) (by omega) (by omega) hpre
          (fun i hi1 hi2 => le_trans hv (hsort ((rlo + rhi) / 2) i hi1 hi2)) R heq
        exact ⟨this.1, by omega, this.2.2.1, this.2.2.2⟩
      · rw [if_neg hv] at heq
        push_neg at hv
        have := ih ((rlo + rhi) / 2 + 1) rhi (by omega) (by omega) hhi
          (fun i hi1 => lt_of_le_of_lt (hsort i ((rlo + rhi) / 2) (by omega) (by omega)) hv)
          hpost R heq
        exact ⟨by omega, this.2.1, this.2.2⟩
    · rw [if_neg hlt] at heq
      subst heq
      have h : rlo = rhi := by omega
      exact ⟨le_refl _, by omega, hpre, h ▸ hpost⟩

/-- Full correctness of `_interval_offsets` on its default range `[0, len)`:
for a list sorted under `key` and `xl <= xr` it returns bounds partitioning
the list into `key < xl`, `xl <= key < xr` and `key >= xr`, and the bounds
coincide when `xl = xr`. -/
theorem interval_offsets_spec {α : Type} (key : α → Int) (dflt : α) (a : List α)
    (xl xr : Int)
    (hsort : ∀ i j, i ≤ j → j < a.length → key (a.getD i dflt) ≤ key (a.getD j dflt))
    (hxlr : xl ≤ xr) :
    ∃ l r, interval_offsets key dflt a xl xr 0 a.length = some (l, r) ∧
    l ≤ r ∧ r ≤ a.length ∧
    (∀ i, i < l → key (a.getD i dflt) < xl) ∧
    (∀ i, l ≤ i → i < r → xl ≤ key (a.getD i dflt) ∧ key (a.getD i dflt) < xr) ∧
    (∀ i, r ≤ i → i < a.length → xr ≤ key (a.getD i dflt)) ∧
    (xl = xr → l = r) := by
  by_cases h0 : 0 = a.length
  · refine ⟨0, a.length, ?_, by omega, le_refl _, fun i hi => absurd hi (by omega),
      fun i hi1 hi2 => absurd (lt_of_le_of_lt hi1 hi2) (by omega),
      fun i hi1 hi2 => absurd (lt_of_le_of_lt (h0 ▸ hi1) hi2) (lt_irrefl _), fun _ => by omega⟩
    rw [interval_offsets, if_neg (by omega), if_pos h0, h0]
  · obtain ⟨lo', hi', m, heq⟩ : ∃ lo' hi' m,
        ivMain key dflt a xl xr 0 a.length 0 = (lo', hi', m) :=
      ⟨_, _, _, rfl⟩
    have hmain := ivMain_spec key dflt a xl xr hsort hxlr a.length 0 a.length 0
      (by omega) (by omega) (le_refl _) (fun i hi => absurd hi (by omega))
      (fun i hi1 hi2 => absurd (lt_of_le_of_lt hi1 hi2) (lt_irrefl _)) lo' hi' m heq
    obtain ⟨hlo0, hlh, hhiN, hpre, hpost, hdisj⟩ := hmain
    have hio : interval_offsets key dflt a xl xr 0 a.length =
        some (ivLeft key dflt a xl lo' m, ivRight key dflt a xr m hi') := by
      rw [interval_offsets, if_neg (by omega), if_neg h0, heq]
    rcases hdisj with ⟨hm1, hm2, hvl, hvr⟩ | ⟨heqb, hm⟩
    · -- break: mid inside the answer range
      have hL := ivLeft_spec key dflt a xl hsort (m - lo') lo' m (by omega) (by omega)
        (by omega)
        hpre
        (fun i hi1 hi2 => le_trans hvl (hsort m i hi1 hi2))
        (ivLeft key dflt a xl lo' m) rfl
      have hR := ivRight_spec key dflt a xr hsort (hi' - m) m hi' (by omega) (by omega)
        hhiN
        (fun i hi1 => lt_of_le_of_lt (hsort i m (by omega) (by omega)) hvr)
        hpost
        (ivRight key dflt a xr m hi') rfl
      obtain ⟨hL1, hL2, hLpre, hLpost⟩ := hL
      obtain ⟨hR1, hR2, hRpre, hRpost⟩ := hR
      refine ⟨ivLeft key dflt a xl lo' m, ivRight key dflt a xr m hi', hio,
        by omega, by omega, hLpre, ?_, hRpost, ?_⟩
      · intro i hi1 hi2
        refine ⟨hLpost i hi1 (by omega), hRpre i hi2⟩
      · intro hxx
        by_contra hne
        have hlt : ivLeft key dflt a xl lo' m < ivRight key dflt a xr m hi' := by omega
        have h1 := hLpost (ivLeft key dflt a xl lo' m) (le_refl _) (by omega)
        have h2 := hRpre (ivLeft key dflt a xl lo' m) hlt
        omega
    · -- no break: the range narrowed to empty
      subst heqb
      have hLeq : ivLeft key dflt a xl lo' m = lo' := by
        rcases hm with hm | hm
        · rw [hm, ivLeft, if_neg (lt_irrefl lo')]
        · rw [ivLeft, if_neg (by omega)]
      have hReq : ivRight key dflt a xr m lo' = lo' := by
        rcases hm with hm | hm
        · rw [hm, ivRight, if_neg (lt_irrefl lo')]
        · have hmid : (m + lo') / 2 = m := by omega
          have hnot : ¬ (xr ≤ key (a.getD ((m + lo') / 2) dflt)) := by
            rw [hmid]
            exact not_le.mpr (lt_of_lt_of_le (hpre m (by omega)) hxlr)
          rw [ivRight, if_pos (by omega), if_neg hnot, ivRight, if_neg (by omega)]
          omega
      rw [hLeq, hReq] at hio
      exact ⟨lo', lo', hio, le_refl _, by omega, hpre,
        fun i hi1 hi2 => absurd (lt_of_le_of_lt hi1 hi2) (lt_irrefl _), hpost, fun _ => rfl⟩

/-- A list pairwise-sorted under `key` is index-monotone under `key`. -/
theorem sorted_of_pairwise {α : Type} (key : α → Int) (dflt : α) (a : List α)
    (h : List.Pairwise (fun x y => key x ≤ key y) a) :
    ∀ i j, i ≤ j → j < a.length → key (a.getD i dflt) ≤ key (a.getD j dflt) := by
  intro i j hij hj
  rcases Nat.eq_or_lt_of_le hij with heq | hlt
  · subst heq
    exact le_refl _
  · rw [List.getD_eq_getElem a dflt (by omega), List.getD_eq_getElem a dflt hj]
    exact List.pairwise_iff_getElem.mp h i j (by omega) hj hlt

/-- `_interval_offsets` succeeds exactly when `xl <= xr`. -/
theorem interval_offsets_isSome {α : Type} (key : α → Int) (dflt : α) (a : List α)
    (xl xr : Int) (hxlr : xl ≤ xr) (lo hi : Nat) :
    ∃ pr, interval_offsets key dflt a xl xr lo hi = some pr := by
  rw [interval_offsets, if_neg (by omega)]
  by_cases h0 : lo = hi
  · rw [if_pos h0]
    exact ⟨_, rfl⟩
  · rw [if_neg h0]
    exact ⟨_, rfl⟩

/-- If a predicate is false strictly before `l`, true on `[l, r)` and false
from `r` on, then filtering the list is the same as slicing it to `[l, r)`. -/
theorem filter_eq_slice {α : Type} (p : α → Bool) (dflt : α) (a : List α) (l r : Nat)
    (hlr : l ≤ r) (hr : r ≤ a.length)
    (hpre : ∀ i, i < l → p (a.getD i dflt) = false)
    (hmid : ∀ i, l ≤ i → i < r → p (a.getD i dflt) = true)
    (hpost : ∀ i, r ≤ i → i < a.length → p (a.getD i dflt) = false) :
    a.filter p = (a.drop l).take (r - l) := by
  have hsplit : a.filter p =
      (a.take l).filter p ++ (((a.drop l).take (r - l)).filter p ++
        ((a.drop l).drop (r - l)).filter p) := by
    rw [← List.filter_append, ← List.filter_append, List.take_append_drop,
      List.take_append_drop]
  have h1 : (a.take l).filter p = [] := by
    rw [List.filter_eq_nil_iff]
    intro x hx
    obtain ⟨i, hi, hxi⟩ := List.mem_iff_getElem.mp hx
    have hil : i < l := by
      have := hi
      simp only [List.length_take] at this
      omega
    have hia : i < a.length := by omega
    have hti : (a.take l)[i] = a[i] := List.getElem_take ..
    have hpe := hpre i hil
    rw [List.getD_eq_getElem a dflt hia] at hpe
    rw [← hxi, hti]
    simp [hpe]
  have h2 : ((a.drop l).take (r - l)).filter p = (a.drop l).take (r - l) := by
    rw [List.filter_eq_self]
    intro x hx
    obtain ⟨i, hi, hxi⟩ := List.mem_iff_getElem.mp hx
    have hb : i < r - l ∧ l + i < a.length := by
      have := hi
      simp only [List.length_take, List.length_drop] at this
      omega
    obtain ⟨hb1, hb2⟩ := hb
    have hg : ((a.drop l).take (r - l))[i] = a[l + i] := by
      rw [List.getElem_take, List.getElem_drop]
    have hpe := hmid (l + i) (by omega) (by omega)
    rw [List.getD_eq_getElem a dflt hb2] at hpe
    rw [← hxi, hg]
    exact hpe
  have h3 : ((a.drop l).drop (r - l)).filter p = [] := by
    rw [List.drop_drop, show l + (r - l) = r from by omega, List.filter_eq_nil_iff]
    intro x hx
    obtain ⟨i, hi, hxi⟩ := List.mem_iff_getElem.mp hx
    have hb : r + i < a.length := by
      have := hi
      simp only [List.length_drop] at this
      omega
    have hg : (a.drop r)[i] = a[r + i] := by
      rw [List.getElem_drop]
    have hpe := hpost (r + i) (by omega) hb
    rw [List.getD_eq_getElem a dflt hb] at hpe
    rw [← hxi, hg]
    simp [hpe]
  rw [hsplit, h1, h2, h3]
  simp

/-- C2: for every list sorted non-decreasingly under the key function and
every `xl <= xr`, `_interval_offsets(a, xl, xr)` returns `(l, r)` with
`key(v) < xl` before `l`, `xl <= key(v) < xr` on `[l, r)` and `key(v) >= xr`
from `r` on; when `xl = xr` the slice is empty (`l = r`) at the correct
insertion point, and on `[1,3,3,5,8]` with query `[3,5)` it returns
`(1,3)`. -/
theorem claim_C2_interval_offsets :
    (∀ (α : Type) (key : α → Int) (dflt : α) (a : List α) (xl xr : Int),
      List.Pairwise (fun x y => key x ≤ key y) a →
      xl ≤ xr →
      ∃ l r, interval_offsets key dflt a xl xr 0 a.length = some (l, r) ∧
        l ≤ r ∧ r ≤ a.length ∧
        (∀ i, i < l → key (a.getD i dflt) < xl) ∧
        (∀ i, l ≤ i → i < r → xl ≤ key (a.getD i dflt) ∧ key (a.getD i dflt) < xr) ∧
        (∀ i, r ≤ i → i < a.length → xr ≤ key (a.getD i dflt)) ∧
        (xl = xr → l = r)) ∧
    interval_offsets (fun x => x) 0 ([1, 3, 3, 5, 8] : List Int) 3 5 0 5 = some (1, 3) := by
  constructor
  · intro α key dflt a xl xr hpw hxlr
    exact interval_offsets_spec key dflt a xl xr (sorted_of_pairwise key dflt a hpw) hxlr
  · simp [interval_offsets, ivMain, ivLeft, ivRight]

/-- Witness for C2: the general theorem applied to the concrete sorted list
`[1,3,3,5,8]` with query `[3,5)`. -/
theorem claim_C2_interval_offsets_witness :
    List.Pairwise (fun x y : Int => x ≤ y) ([1, 3, 3, 5, 8] : List Int) ∧
    (∃ l r, interval_offsets (fun x => x) 0 ([1, 3, 3, 5, 8] : List Int) 3 5 0
        ([1, 3, 3, 5, 8] : List Int).length = some (l, r) ∧
      l ≤ r ∧ r ≤ ([1, 3, 3, 5, 8] : List Int).length ∧
      (∀ i, i < l → ([1, 3, 3, 5, 8] : List Int).getD i 0 < 3) ∧
      (∀ i, l ≤ i → i < r → 3 ≤ ([1, 3, 3, 5, 8] : List Int).getD i 0 ∧
        ([1, 3, 3, 5, 8] : List Int).getD i 0 < 5) ∧
      (∀ i, r ≤ i → i < ([1, 3, 3, 5, 8] : List Int).length →
        5 ≤ ([1, 3, 3, 5, 8] : List Int).getD i 0) ∧
      ((3 : Int) = 5 → l = r)) :=
  ⟨by decide, claim_C2_interval_offsets.1 Int (fun x => x) 0 [1, 3, 3, 5, 8] 3 5
    (by decide) (by decide)⟩

/-- C9: `TextSegment.build(document, token_offset, token_offset_end)` copies
into the segment exactly the document occurrences whose start offset lies in
`[token_offset, token_offset_end)`, each rebased by subtracting
`token_offset`; an occurrence starting earlier is excluded even if it
extends into the range, and an included occurrence's `offset_end` is rebased
without clamping. -/
theorem claim_C9_build_entities (doc : IEDocument) (toff tend : Nat)
    (hto : toff ≤ tend)
    (hsorted : List.Pairwise (fun a b => a.offset ≤ b.offset) doc.entities) :
    ∃ seg, TextSegment.build doc toff tend = some seg ∧
      seg.entities = (doc.entities.filter
          (fun o => decide ((toff : Int) ≤ o.offset ∧ o.offset < (tend : Int)))).map
        (fun o =>
          { key := o.entity.key
            canonical_form := o.entity.canonical_form
            kind := o.entity.kind
            offset := o.offset - (toff : Int)
            offset_end := o.offset_end - (toff : Int)
            aliasText := o.aliasText }) := by
  have hxlr : (toff : Int) ≤ (tend : Int) := by exact_mod_cast hto
  obtain ⟨l1, r1, hio1, hlr1, hr1, hpre1, hmid1, hpost1, -⟩ :=
    interval_offsets_spec (fun o => o.offset) dfltOcc doc.entities
      (toff : Int) (tend : Int)
      (sorted_of_pairwise (fun o => o.offset) dfltOcc doc.entities hsorted) hxlr
  obtain ⟨pr2, hio2⟩ := interval_offsets_isSome (fun x => x) 0 doc.sentences
    (toff : Int) (tend : Int) hxlr 0 doc.sentences.length
  obtain ⟨l2, r2⟩ := pr2
  have hpre : ∀ i, i < l1 → (doc.entities.getD i dfltOcc).offset < (toff : Int) := hpre1
  have hmid : ∀ i, l1 ≤ i → i < r1 →
      (toff : Int) ≤ (doc.entities.getD i dfltOcc).offset ∧
      (doc.entities.getD i dfltOcc).offset < (tend : Int) := hmid1
  have hpost : ∀ i, r1 ≤ i → i < doc.entities.length →
      (tend : Int) ≤ (doc.entities.getD i dfltOcc).offset := hpost1
  have hslice := filter_eq_slice
    (fun o => decide ((toff : Int) ≤ o.offset ∧ o.offset < (tend : Int)))
    dfltOcc doc.entities l1 r1 hlr1 hr1
    (fun i hi => by
      have h := hpre i hi
      simp only [decide_eq_false_iff_not, not_and, not_lt]
      intro hc
      omega)
    (fun i hi1 hi2 => by
      have h := hmid i hi1 hi2
      simp only [decide_eq_true_eq]
      exact h)
    (fun i hi1 hi2 => by
      have h := hpost i hi1 hi2
      simp only [decide_eq_false_iff_not, not_and, not_lt]
      intro hc
      omega)
  have hbuild : ∃ seg, TextSegment.build doc toff tend = some seg ∧
      seg.entities = ((doc.entities.drop l1).take (r1 - l1)).map
        (fun o =>
          { key := o.entity.key
            canonical_form := o.entity.canonical_form
            kind := o.entity.kind
            offset := o.offset - (toff : Int)
            offset_end := o.offset_end - (toff : Int)
            aliasText := o.aliasText }) := by
    rw [TextSegment.build, hio1, hio2]
    exact ⟨_, rfl, rfl⟩
  obtain ⟨seg, hseg, hent⟩ := hbuild
  refine ⟨seg, hseg, ?_⟩
  rw [hent, hslice]

/-- Witness for C9: the theorem applied to a concrete document whose
occurrence `[0,3)` starts before the requested range `[2,6)` (excluded) and
whose occurrence `[5,9)` extends past it (kept, unclamped). -/
theorem claim_C9_build_entities_witness :
    (2 ≤ 6 ∧ List.Pairwise (fun a b => a.offset ≤ b.offset) exDoc9.entities) ∧
    (∃ seg, TextSegment.build exDoc9 2 6 = some seg ∧
      seg.entities = (exDoc9.entities.filter
          (fun o => decide ((2 : Int) ≤ o.offset ∧ o.offset < (6 : Int)))).map
        (fun o =>
          { key := o.entity.key
            canonical_form := o.entity.canonical_form
            kind := o.entity.kind
            offset := o.offset - (2 : Int)
            offset_end := o.offset_end - (2 : Int)
            aliasText := o.aliasText })) :=
  ⟨⟨by omega, by decide⟩, claim_C9_build_entities exDoc9 2 6 (by omega) (by decide)⟩

/-!
### The preprocessing-result writes (`IEDocument.set_preprocess_result`)
-/

/-- C10: on any document, the sentencer step with an empty result list fails
with the `IndexError` from reading `result[0]` — not a validation
`ValueError` and not a successful write. -/
theorem claim_C10_empty_sentencer_result (doc : IEDocument) :
    set_preprocess_result doc PreProcessSteps.sentencer ([] : List Int) =
      Except.error PpError.indexError := rfl

/-- Strictly ascending chains are exactly sorted duplicate-free chains. -/
theorem chain_lt_iff_chain_le_nodup (l : List Int) :
    List.Chain' (· < ·) l ↔ (List.Chain' (· ≤ ·) l ∧ l.Nodup) := by
  rw [List.chain'_iff_pairwise, List.chain'_iff_pairwise, List.Nodup]
  constructor
  · intro h
    exact ⟨h.imp le_of_lt, h.imp ne_of_lt⟩
  · rintro ⟨h1, h2⟩
    exact (h1.and h2).imp (fun hab => lt_of_le_of_ne hab.1 hab.2)

/-- C8: `set_preprocess_result` validates before mutating.  The sentencer
write succeeds exactly when the boundary list is strictly increasing (sorted
with no duplicates), starts at `0` and ends at the token count, and then
changes only the `sentences` field plus the done-flag; the tagging write
succeeds exactly when the result length equals the token count, and then
changes only the `postags` field plus the done-flag.  Any violation yields
an error, and in this pure embedding an error returns no document at all,
i.e. the document is left exactly as before the call. -/
theorem claim_C8_set_preprocess_result (doc : IEDocument) (l : List Int) (t : List String) :
    ((∃ d, set_preprocess_result doc PreProcessSteps.sentencer l = Except.ok d) ↔
      (List.Chain' (· < ·) l ∧ l.head? = some 0 ∧
        l.getLast? = some (doc.tokens.length : Int))) ∧
    (∀ d, set_preprocess_result doc PreProcessSteps.sentencer l = Except.ok d →
      d = { doc with
            sentences := l
            preprocess_metadata := doc.preprocess_metadata.insert "sentencer" }) ∧
    ((∃ d, set_preprocess_result doc PreProcessSteps.tagging t = Except.ok d) ↔
      t.length = doc.tokens.length) ∧
    (∀ d, set_preprocess_result doc PreProcessSteps.tagging t = Except.ok d →
      d = { doc with
            postags := t
            preprocess_metadata := doc.preprocess_metadata.insert "tagging" }) := by
  refine ⟨?_, ?_, ?_, ?_⟩
  · rw [chain_lt_iff_chain_le_nodup]
    cases l with
    | nil => simp [set_preprocess_result]
    | cons x xs =>
      simp only [set_preprocess_result]
      by_cases h1 : List.Chain' (· ≤ ·) (x :: xs)
      · rw [if_neg (not_not_intro h1)]
        by_cases h2 : (x :: xs).Nodup
        · rw [if_neg (not_not_intro h2)]
          by_cases h3 : x = 0
          · rw [if_neg (not_not_intro h3)]
            by_cases h4 : (x :: xs).getLast (by simp) = (doc.tokens.length : Int)
            · rw [if_neg (not_not_intro h4)]
              refine iff_of_true ⟨_, rfl⟩ ⟨⟨h1, h2⟩, by simp [h3], ?_⟩
              rw [List.getLast?_eq_getLast (x :: xs) (by simp)]
              exact congrArg some h4
            · rw [if_pos h4]
              refine iff_of_false (by simp) ?_
              rintro ⟨-, -, hq⟩
              rw [List.getLast?_eq_getLast (x :: xs) (by simp)] at hq
              simp only [Option.some.injEq] at hq
              exact h4 hq
          · rw [if_pos h3]
            refine iff_of_false (by simp) ?_
            rintro ⟨-, hh, -⟩
            simp only [List.head?_cons, Option.some.injEq] at hh
            exact h3 hh
        · rw [if_pos h2]
          refine iff_of_false (by simp) ?_
          rintro ⟨⟨-, hn⟩, -, -⟩
          exact h2 hn
      · rw [if_pos h1]
        refine iff_of_false (by simp) ?_
        rintro ⟨⟨hc, -⟩, -, -⟩
        exact h1 hc
  · cases l with
    | nil =>
      intro d hd
      exact absurd hd (by simp [set_preprocess_result])
    | cons x xs =>
      intro d hd
      simp only [set_preprocess_result] at hd
      split_ifs at hd <;> simp only [Except.ok.injEq, reduceCtorEq] at hd
      rw [← hd]
      rfl
  · simp only [set_preprocess_result]
    by_cases h1 : t.length = doc.tokens.length
    · rw [if_neg (not_not_intro h1)]
      exact iff_of_true ⟨_, rfl⟩ h1
    · rw [if_pos h1]
      exact iff_of_false (by simp) h1
  · intro d hd
    simp only [set_preprocess_result] at hd
    split_ifs at hd <;> simp only [Except.ok.injEq, reduceCtorEq] at hd
    rw [← hd]
    rfl

/-- Witness for C8: a valid sentencer write on a two-token document. -/
theorem claim_C8_set_preprocess_result_witness :
    (List.Chain' (· < ·) ([0, 2] : List Int) ∧ ([0, 2] : List Int).head? = some 0 ∧
      ([0, 2] : List Int).getLast? = some (exDoc10.tokens.length : Int)) ∧
    (∃ d, set_preprocess_result exDoc10 PreProcessSteps.sentencer
      ([0, 2] : List Int) = Except.ok d) :=
  ⟨⟨by norm_num, by decide, by decide⟩,
    (claim_C8_set_preprocess_result exDoc10 [0, 2] []).1.mpr
      ⟨by norm_num, by decide, by decide⟩⟩

/-!
### `Knowledge.by_certainty` and the `None` score (C1)
-/

-- The arithmetic of `Rat` is marked irreducible in the library; concrete
-- evaluation of certainty scores needs it reducible again.
set_option allowUnsafeReducibility true in
attribute [semireducible] Rat.add Rat.sub Rat.mul Rat.inv

/-- C1 evaluated at the failing input `{exEvA: None, exEvB: 0.5}`.  The code
keys a `None` score as `0`, so `exEvA` is ranked strictly below every scored
item and comes last; ranking `None` "exactly as if its score were 0.5" — as
the function's own docstring and the spec state — would tie the two
certainties at `0.5` and put `exEvA` first by the descending tie-break over
Evidence.  The first conjunct is what the code returns, the second what the
documented ranking returns, the third that the two keys' certainties are
equal, and the fourth that the code nevertheless orders the `None` item
strictly below. -/
theorem claim_C1_by_certainty_none_score :
    by_certainty exKn = [(exEvB, some (1/2)), (exEvA, none)] ∧
    by_certainty_noneAs05 exKn = [(exEvA, none), (exEvB, some (1/2))] ∧
    certainty none = certainty (some (1/2)) ∧
    keyLtb (byCertaintyKey (exEvA, none)) (byCertaintyKey (exEvB, some (1/2))) = true := by
  exact ⟨by decide, by decide, by decide, by decide⟩

/-!
### `build_contextual_segments`: deduplication (C3) and boundary widening (C4)
-/

/-- Counterexample to C3 as stated: on `exDoc3` with `d = 2` the second
candidate window `[10, 25)` is strictly contained in the immediately
preceding constructed window `[8, 90)` (both endpoints strictly inside),
yet it is materialized (`true`), not discarded. -/
theorem claim_C3_counterexample :
    build_contextual_segments exDoc3 2 = [(8, 90, true), (10, 25, true)] ∧
    (8 : Int) < 10 ∧ (25 : Int) < 90 := by
  refine ⟨?_, by norm_num, by norm_num⟩
  simp [build_contextual_segments, ctxLoop, widenStart, widenEnd, windowStart, windowEnd,
    rightIdx, exDoc3, exDocBase, mkOcc, dfltOcc]

/-- Every step of the candidate-window loop satisfies the actual
deduplication rule with respect to the running `lstart`/`lend` pair. -/
theorem ctxLoop_chain (doc : IEDocument) (d : Int) :
    ∀ n i lstart lend b, doc.entities.length - i ≤ n →
      List.Chain' dedupOk ((lstart, lend, b) :: ctxLoop doc d i lstart lend) := by
  intro n
  induction n with
  | zero =>
    intro i ls le b hn
    rw [ctxLoop, if_neg (by omega)]
    exact List.chain'_singleton _
  | succ n ih =>
    intro i ls le b hn
    rw [ctxLoop]
    by_cases h1 : i + 1 < doc.entities.length
    · rw [if_pos h1]
      by_cases h2 : (doc.entities.getD (i + 1) dfltOcc).offset -
          (doc.entities.getD i dfltOcc).offset_end ≥ d
      · rw [if_pos h2]
        exact ih (i + 1) ls le b (by omega)
      · rw [if_neg h2]
        rw [List.chain'_cons]
        refine ⟨⟨by simp, ?_⟩, ih (i + 1) _ _ _ (by omega)⟩
        intro hf
        simp at hf
        exact ⟨hf.2, le_of_eq hf.1⟩
    · rw [if_neg h1]
      exact List.chain'_singleton _

/-- C3 amended: along the candidate-window trace of
`build_contextual_segments`, a window is discarded if and only if it ends
exactly where the immediately preceding candidate window ends and starts no
earlier than it; consequently every discarded window exactly repeats or is
contained in its predecessor, while a strictly contained window with a
strictly smaller end is materialized (see the counterexample). -/
theorem claim_C3_amended_dedup (doc : IEDocument) (d : Int) :
    List.Chain' dedupOk (build_contextual_segments doc d) :=
  (ctxLoop_chain doc d doc.entities.length 0 (-1) (-1) true (by omega)).tail

/-- Counterexample to C4 as stated: on `exDoc4` with `d = 2` the window
`[38, 45)` is materialized although the document occurrence `[0, 60)`
straddles both of its boundaries. -/
theorem claim_C4_counterexample :
    build_contextual_segments exDoc4 2 = [(0, 60, true), (38, 45, true)] ∧
    straddles exDoc4.entities 0 38 ∧ straddles exDoc4.entities 0 45 := by
  refine ⟨?_, ⟨by decide, by decide⟩, ⟨by decide, by decide⟩⟩
  simp [build_contextual_segments, ctxLoop, widenStart, widenEnd, windowStart, windowEnd,
    rightIdx, exDoc4, exDocBase, mkOcc, dfltOcc]

/-- Under non-overlap and positive width, `offset_end` is monotone in the
occurrence index. -/
theorem offsetEnd_mono (ents : List EntityOccurrence)
    (hno : ∀ k, k + 1 < ents.length →
      (ents.getD k dfltOcc).offset_end ≤ (ents.getD (k + 1) dfltOcc).offset)
    (hpos : ∀ k, k < ents.length →
      (ents.getD k dfltOcc).offset < (ents.getD k dfltOcc).offset_end) :
    ∀ k j, k ≤ j → j < ents.length →
      (ents.getD k dfltOcc).offset_end ≤ (ents.getD j dfltOcc).offset_end := by
  intro k j hkj
  induction j, hkj using Nat.le_induction with
  | base => intro _; exact le_refl _
  | succ j hkj ih =>
    intro hj
    calc (ents.getD k dfltOcc).offset_end ≤ (ents.getD j dfltOcc).offset_end :=
          ih (by omega)
      _ ≤ (ents.getD (j + 1) dfltOcc).offset := hno j hj
      _ ≤ (ents.getD (j + 1) dfltOcc).offset_end := le_of_lt (hpos (j + 1) hj)

/-- Sorted occurrences: `offset` is monotone in the index. -/
theorem offset_mono (ents : List EntityOccurrence)
    (hadj : ∀ k, k + 1 < ents.length →
      (ents.getD k dfltOcc).offset ≤ (ents.getD (k + 1) dfltOcc).offset) :
    ∀ k j, k ≤ j → j < ents.length →
      (ents.getD k dfltOcc).offset ≤ (ents.getD j dfltOcc).offset := by
  intro k j hkj
  induction j, hkj using Nat.le_induction with
  | base => intro _; exact le_refl _
  | succ j hkj ih =>
    intro hj
    exact le_trans (ih (by omega)) (hadj j hj)

/-- Non-overlap chained to an arbitrary later index. -/
theorem offsetEnd_le_offset (ents : List EntityOccurrence)
    (hadj : ∀ k, k + 1 < ents.length →
      (ents.getD k dfltOcc).offset ≤ (ents.getD (k + 1) dfltOcc).offset)
    (hno : ∀ k, k + 1 < ents.length →
      (ents.getD k dfltOcc).offset_end ≤ (ents.getD (k + 1) dfltOcc).offset) :
    ∀ k j, k < j → j < ents.length →
      (ents.getD k dfltOcc).offset_end ≤ (ents.getD j dfltOcc).offset := by
  intro k j hkj hj
  calc (ents.getD k dfltOcc).offset_end ≤ (ents.getD (k + 1) dfltOcc).offset :=
        hno k (by omega)
    _ ≤ (ents.getD j dfltOcc).offset := offset_mono ents hadj (k + 1) j (by omega) hj

/-- The start-widening loop only moves the boundary to the left. -/
theorem widenStart_le (ents : List EntityOccurrence) :
    ∀ j s, widenStart ents j s ≤ s := by
  intro j
  induction j with
  | zero =>
    intro s
    rw [widenStart]
    by_cases h : (ents.getD 0 dfltOcc).offset_end > s
    · rw [if_pos h]
      exact min_le_left ..
    · rw [if_neg h]
  | succ j ih =>
    intro s
    rw [widenStart]
    by_cases h : (ents.getD (j + 1) dfltOcc).offset_end > s
    · rw [if_pos h]
      exact le_trans (ih _) (min_le_left ..)
    · rw [if_neg h]

/-- If the first iteration of the start-widening loop runs, the result is at
most that occurrence's start offset. -/
theorem widenStart_le_offset (ents : List EntityOccurrence) (j : Nat) (s : Int)
    (h : (ents.getD j dfltOcc).offset_end > s) :
    widenStart ents j s ≤ (ents.getD j dfltOcc).offset := by
  cases j with
  | zero =>
    rw [widenStart, if_pos h]
    exact min_le_right ..
  | succ j =>
    rw [widenStart, if_pos h]
    exact le_trans (widenStart_le ents j _) (min_le_right ..)

/-- After start widening from index `j`, no occurrence with index `<= j`
straddles the resulting boundary. -/
theorem widenStart_no_straddle (ents : List EntityOccurrence)
    (hno : ∀ k, k + 1 < ents.length →
      (ents.getD k dfltOcc).offset_end ≤ (ents.getD (k + 1) dfltOcc).offset)
    (hpos : ∀ k, k < ents.length →
      (ents.getD k dfltOcc).offset < (ents.getD k dfltOcc).offset_end) :
    ∀ j, j < ents.length → ∀ s k, k ≤ j → ¬ straddles ents k (widenStart ents j s) := by
  intro j
  induction j with
  | zero =>
    intro hj s k hk
    have hk0 : k = 0 := by omega
    subst hk0
    rw [widenStart]
    by_cases h : (ents.getD 0 dfltOcc).offset_end > s
    · rw [if_pos h]
      rintro ⟨h1, h2⟩
      have := min_le_right s (ents.getD 0 dfltOcc).offset
      omega
    · rw [if_neg h]
      rintro ⟨h1, h2⟩
      omega
  | succ j ih =>
    intro hj s k hk
    rw [widenStart]
    by_cases h : (ents.getD (j + 1) dfltOcc).offset_end > s
    · rw [if_pos h]
      rcases Nat.lt_or_ge k (j + 1) with hk2 | hk2
      · exact ih (by omega) _ k (by omega)
      · have hke : k = j + 1 := by omega
        subst hke
        rintro ⟨h1, h2⟩
        have hle := widenStart_le ents j (min s (ents.getD (j + 1) dfltOcc).offset)
        have := min_le_right s (ents.getD (j + 1) dfltOcc).offset
        omega
    · rw [if_neg h]
      rintro ⟨h1, h2⟩
      have := offsetEnd_mono ents hno hpos k (j + 1) hk hj
      omega

/-- The end-widening loop only moves the boundary to the right. -/
theorem widenEnd_ge (ents : List EntityOccurrence) :
    ∀ n j e, ents.length - j ≤ n → e ≤ widenEnd ents j e := by
  intro n
  induction n with
  | zero =>
    intro j e hn
    rw [widenEnd, if_neg (by omega)]
  | succ n ih =>
    intro j e hn
    rw [widenEnd]
    by_cases h : j < ents.length ∧ (ents.getD j dfltOcc).offset < e
    · rw [if_pos h]
      exact le_trans (le_max_left ..) (ih (j + 1) _ (by omega))
    · rw [if_neg h]

/-- After end widening from index `j`, no occurrence with index `>= j`
straddles the resulting boundary. -/
theorem widenEnd_no_straddle (ents : List EntityOccurrence)
    (hadj : ∀ k, k + 1 < ents.length →
      (ents.getD k dfltOcc).offset ≤ (ents.getD (k + 1) dfltOcc).offset) :
    ∀ n j e, ents.length - j ≤ n →
      ∀ k, j ≤ k → k < ents.length → ¬ straddles ents k (widenEnd ents j e) := by
  intro n
  induction n with
  | zero =>
    intro j e hn k hk1 hk2
    exact absurd (by omega : j < ents.length) (by omega)
  | succ n ih =>
    intro j e hn k hk1 hk2
    rw [widenEnd]
    by_cases h : j < ents.length ∧ (ents.getD j dfltOcc).offset < e
    · rw [if_pos h]
      rcases Nat.lt_or_ge j k with hk3 | hk3
      · exact ih (j + 1) _ (by omega) k (by omega) hk2
      · have hke : k = j := by omega
        subst hke
        rintro ⟨h1, h2⟩
        have hge := widenEnd_ge ents (ents.length - (k + 1)) (k + 1)
          (max e (ents.getD k dfltOcc).offset_end) (by omega)
        have := le_max_right e (ents.getD k dfltOcc).offset_end
        omega
    · rw [if_neg h]
      rintro ⟨h1, h2⟩
      push_neg at h
      have := offset_mono ents hadj j k hk1 hk2
      have := h (by omega)
      omega

/-- `rightIdx` is `i + 1` or `i + 2` and stays in range. -/
theorem rightIdx_bounds (doc : IEDocument) (d : Int) (i : Nat)
    (hi : i + 1 < doc.entities.length) :
    i + 1 ≤ rightIdx doc d i ∧ rightIdx doc d i < doc.entities.length := by
  rw [rightIdx]
  by_cases h : i + 2 < doc.entities.length ∧
      (doc.entities.getD (i + 2) dfltOcc).offset -
        (doc.entities.getD (i + 1) dfltOcc).offset_end < d
  · rw [if_pos h]
    omega
  · rw [if_neg h]
    omega

/-- The corrected window around a close pair at `i` splits no occurrence
(under sortedness, non-overlap, positive width and in-document bounds). -/
theorem window_no_straddle (doc : IEDocument) (d : Int) (i : Nat)
    (hadj : ∀ k, k + 1 < doc.entities.length →
      (doc.entities.getD k dfltOcc).offset ≤ (doc.entities.getD (k + 1) dfltOcc).offset)
    (hno : ∀ k, k + 1 < doc.entities.length →
      (doc.entities.getD k dfltOcc).offset_end ≤ (doc.entities.getD (k + 1) dfltOcc).offset)
    (hpos : ∀ k, k < doc.entities.length →
      (doc.entities.getD k dfltOcc).offset < (doc.entities.getD k dfltOcc).offset_end)
    (hbounds : ∀ k, k < doc.entities.length →
      0 ≤ (doc.entities.getD k dfltOcc).offset ∧
      (doc.entities.getD k dfltOcc).offset_end ≤ (doc.tokens.length : Int))
    (hi : i + 1 < doc.entities.length)
    (hgap : (doc.entities.getD (i + 1) dfltOcc).offset -
      (doc.entities.getD i dfltOcc).offset_end < d) :
    ∀ k, k < doc.entities.length →
      ¬ straddles doc.entities k (windowStart doc d i) ∧
      ¬ straddles doc.entities k (windowEnd doc d i) := by
  have hdpos : 0 < d := by
    have := hno i hi
    omega
  have hiL : i < doc.entities.length := by omega
  have hposi := hpos i hiL
  have hbi := hbounds i hiL
  intro k hk
  constructor
  · rcases le_or_lt k i with hki | hki
    · exact widenStart_no_straddle doc.entities hno hpos i hiL _ k hki
    · -- k > i: the widened start never exceeds entity i's start offset
      have hrun : (doc.entities.getD i dfltOcc).offset_end >
          max 0 ((doc.entities.getD i dfltOcc).offset - d) := by
        omega
      have hle := widenStart_le_offset doc.entities i _ hrun
      rintro ⟨h1, h2⟩
      have := offset_mono doc.entities hadj i k (by omega) hk
      rw [windowStart] at h1 h2
      omega
  · rcases le_or_lt i k with hik | hik
    · exact widenEnd_no_straddle doc.entities hadj
        (doc.entities.length - i) i _ (by omega) k hik hk
    · -- k < i: entity k ends before entity i starts, and the window end is
      -- strictly beyond entity i's start
      obtain ⟨hr1, hr2⟩ := rightIdx_bounds doc d i hi
      have hcap1 : (doc.entities.getD i dfltOcc).offset <
          (doc.entities.getD (rightIdx doc d i) dfltOcc).offset_end + d := by
        have h1 := offset_mono doc.entities hadj i (rightIdx doc d i) (by omega) hr2
        have h2 := hpos (rightIdx doc d i) hr2
        omega
      have hcap2 : (doc.entities.getD i dfltOcc).offset < (doc.tokens.length : Int) := by
        omega
      have hge := widenEnd_ge doc.entities (doc.entities.length - i) i
        (min ((doc.entities.getD (rightIdx doc d i) dfltOcc).offset_end + d)
          (doc.tokens.length : Int)) (by omega)
      have hend : (doc.entities.getD k dfltOcc).offset_end ≤
          (doc.entities.getD i dfltOcc).offset :=
        offsetEnd_le_offset doc.entities hadj hno k i hik hiL
      rintro ⟨h1, h2⟩
      rw [windowEnd] at h1 h2
      omega

/-- Every window in the candidate trace splits no occurrence. -/
theorem ctxLoop_no_straddle (doc : IEDocument) (d : Int)
    (hadj : ∀ k, k + 1 < doc.entities.length →
      (doc.entities.getD k dfltOcc).offset ≤ (doc.entities.getD (k + 1) dfltOcc).offset)
    (hno : ∀ k, k + 1 < doc.entities.length →
      (doc.entities.getD k dfltOcc).offset_end ≤ (doc.entities.getD (k + 1) dfltOcc).offset)
    (hpos : ∀ k, k < doc.entities.length →
      (doc.entities.getD k dfltOcc).offset < (doc.entities.getD k dfltOcc).offset_end)
    (hbounds : ∀ k, k < doc.entities.length →
      0 ≤ (doc.entities.getD k dfltOcc).offset ∧
      (doc.entities.getD k dfltOcc).offset_end ≤ (doc.tokens.length : Int)) :
    ∀ n i ls le, doc.entities.length - i ≤ n →
      ∀ w ∈ ctxLoop doc d i ls le, ∀ k, k < doc.entities.length →
        ¬ straddles doc.entities k w.1 ∧ ¬ straddles doc.entities k w.2.1 := by
  intro n
  induction n with
  | zero =>
    intro i ls le hn w hw
    rw [ctxLoop, if_neg (by omega)] at hw
    exact absurd hw (List.not_mem_nil w)
  | succ n ih =>
    intro i ls le hn w hw
    rw [ctxLoop] at hw
    by_cases h1 : i + 1 < doc.entities.length
    · rw [if_pos h1] at hw
      by_cases h2 : (doc.entities.getD (i + 1) dfltOcc).offset -
          (doc.entities.getD i dfltOcc).offset_end ≥ d
      · rw [if_pos h2] at hw
        exact ih (i + 1) ls le (by omega) w hw
      · rw [if_neg h2] at hw
        rcases List.mem_cons.mp hw with hw | hw
        · subst hw
          exact window_no_straddle doc d i hadj hno hpos hbounds h1 (by omega)
        · exact ih (i + 1) _ _ (by omega) w hw
    · rw [if_neg h1] at hw
      exact absurd hw (List.not_mem_nil w)

/-- C4 amended: provided the document's entity occurrences are sorted by
start offset, pairwise non-overlapping, of positive width and within the
token range — the representation the rest of the code base assumes
(`Evidence.colored_text` relies on non-overlap) — every window that
`build_contextual_segments(d)` materializes splits no entity occurrence
across either boundary.  Without the non-overlap assumption the property
fails; see the counterexample. -/
theorem claim_C4_amended_no_split (doc : IEDocument) (d : Int)
    (hadj : ∀ k, k + 1 < doc.entities.length →
      (doc.entities.getD k dfltOcc).offset ≤ (doc.entities.getD (k + 1) dfltOcc).offset)
    (hno : ∀ k, k + 1 < doc.entities.length →
      (doc.entities.getD k dfltOcc).offset_end ≤ (doc.entities.getD (k + 1) dfltOcc).offset)
    (hpos : ∀ k, k < doc.entities.length →
      (doc.entities.getD k dfltOcc).offset < (doc.entities.getD k dfltOcc).offset_end)
    (hbounds : ∀ k, k < doc.entities.length →
      0 ≤ (doc.entities.getD k dfltOcc).offset ∧
      (doc.entities.getD k dfltOcc).offset_end ≤ (doc.tokens.length : Int)) :
    ∀ w ∈ build_contextual_segments doc d, w.2.2 = true →
      ∀ k, k < doc.entities.length →
        ¬ straddles doc.entities k w.1 ∧ ¬ straddles doc.entities k w.2.1 :=
  fun w hw _ =>
    ctxLoop_no_straddle doc d hadj hno hpos hbounds doc.entities.length 0 (-1) (-1)
      (by omega) w hw

/-- Witness for C4 (amended): the theorem applied to a concrete two-entity
document whose trace contains the materialized window `(0, 5)`. -/
theorem claim_C4_amended_no_split_witness :
    ((∀ k, k + 1 < exDocW.entities.length →
      (exDocW.entities.getD k dfltOcc).offset ≤ (exDocW.entities.getD (k + 1) dfltOcc).offset) ∧
    (∀ k, k + 1 < exDocW.entities.length →
      (exDocW.entities.getD k dfltOcc).offset_end ≤ (exDocW.entities.getD (k + 1) dfltOcc).offset) ∧
    (∀ k, k < exDocW.entities.length →
      (exDocW.entities.getD k dfltOcc).offset < (exDocW.entities.getD k dfltOcc).offset_end) ∧
    (∀ k, k < exDocW.entities.length →
      0 ≤ (exDocW.entities.getD k dfltOcc).offset ∧
      (exDocW.entities.getD k dfltOcc).offset_end ≤ (exDocW.tokens.length : Int))) ∧
    (∀ w ∈ build_contextual_segments exDocW 2, w.2.2 = true →
      ∀ k, k < exDocW.entities.length →
        ¬ straddles exDocW.entities k w.1 ∧ ¬ straddles exDocW.entities k w.2.1) := by
  have hlen : exDocW.entities.length = 2 := rfl
  refine ⟨⟨?_, ?_, ?_, ?_⟩, claim_C4_amended_no_split exDocW 2 ?_ ?_ ?_ ?_⟩ <;>
    (intro k hk; rw [hlen] at hk;
      rcases (by omega : k = 0 ∨ k = 1) with rfl | rfl <;>
        first
        | decide
        | exact absurd hk (by omega))

/-!
### Python dict semantics on association lists (used by C6 and C7)
-/

/-- A key that appears nowhere looks up to nothing. -/
theorem alookup_eq_none_of_not_mem {α β : Type} [DecidableEq α]
    (l : List (α × β)) (k : α) (h : k ∉ l.map Prod.fst) : alookup l k = none := by
  induction l with
  | nil => rfl
  | cons p rest ih =>
    simp only [List.map_cons, List.mem_cons] at h
    push_neg at h
    rw [alookup, if_neg (fun hc => h.1 hc.symm)]
    exact ih h.2

/-- Lookup distributes over concatenation, first list first. -/
theorem alookup_append {α β : Type} [DecidableEq α] (l1 l2 : List (α × β)) (k : α) :
    alookup (l1 ++ l2) k = (alookup l1 k).elim (alookup l2 k) some := by
  induction l1 with
  | nil => rfl
  | cons p rest ih =>
    rw [List.cons_append, alookup, alookup]
    by_cases hp : p.1 = k
    · rw [if_pos hp, if_pos hp]
      rfl
    · rw [if_neg hp, if_neg hp]
      exact ih

/-- Replacing every binding of key `e` leaves other keys untouched. -/
theorem alookup_map_replace_ne {α β : Type} [DecidableEq α]
    (l : List (α × β)) (e : α) (v : β) (x : α) (hx : x ≠ e) :
    alookup (l.map (fun p => if p.1 = e then (e, v) else p)) x = alookup l x := by
  induction l with
  | nil => rfl
  | cons p rest ih =>
    simp only [List.map_cons]
    by_cases hpe : p.1 = e
    · rw [if_pos hpe, alookup, alookup,
        if_neg (show ¬((e, v).1 = x) from fun hc => hx hc.symm),
        if_neg (fun hc : p.1 = x => hx (hpe ▸ hc ▸ rfl))]
      exact ih
    · rw [if_neg hpe, alookup, alookup]
      by_cases hpx : p.1 = x
      · rw [if_pos hpx, if_pos hpx]
      · rw [if_neg hpx, if_neg hpx]
        exact ih

/-- If key `e` occurs, replacing its bindings makes it look up to `v`. -/
theorem alookup_map_replace_eq {α β : Type} [DecidableEq α]
    (l : List (α × β)) (e : α) (v : β) (hany : l.any (fun p => p.1 = e) = true) :
    alookup (l.map (fun p => if p.1 = e then (e, v) else p)) e = some v := by
  induction l with
  | nil => simp at hany
  | cons p rest ih =>
    simp only [List.map_cons]
    by_cases hpe : p.1 = e
    · rw [if_pos hpe, alookup, if_pos rfl]
    · rw [if_neg hpe, alookup, if_neg hpe]
      apply ih
      simp only [List.any_cons, Bool.or_eq_true, decide_eq_true_eq] at hany
      rcases hany with h | h
      · exact absurd h hpe
      · exact h

/-- `dict.__setitem__` semantics: the inserted key now maps to the value,
all other keys are unchanged. -/
theorem alookup_dictInsert {α β : Type} [DecidableEq α]
    (l : List (α × β)) (e : α) (v : β) (x : α) :
    alookup (dictInsert l e v) x = if x = e then some v else alookup l x := by
  rw [dictInsert]
  by_cases hx : x = e
  · subst hx
    rw [if_pos rfl]
    by_cases hany : l.any (fun p => p.1 = x)
    · rw [if_pos hany]
      exact alookup_map_replace_eq l x v hany
    · rw [if_neg hany]
      have hnone : alookup l x = none := by
        apply alookup_eq_none_of_not_mem
        intro hmem
        apply hany
        obtain ⟨p, hp, hpe⟩ := List.mem_map.mp hmem
        exact List.any_eq_true.mpr ⟨p, hp, by simp [hpe]⟩
      rw [alookup_append, hnone]
      rw [show alookup [(x, v)] x = some v from by rw [alookup, if_pos rfl]]
      rfl
  · rw [if_neg hx]
    by_cases hany : l.any (fun p => p.1 = e)
    · rw [if_pos hany]
      exact alookup_map_replace_ne l e v x hx
    · rw [if_neg hany, alookup_append]
      rw [show alookup [(e, v)] x = none from by
        rw [alookup, if_neg (fun hc : e = x => hx hc.symm)]; rfl]
      cases hl : alookup l x
      · rfl
      · rfl

/-- One unfolding step of `dict.update`. -/
theorem dictUpdate_cons {α β : Type} [DecidableEq α]
    (l : List (α × β)) (p : α × β) (items : List (α × β)) :
    dictUpdate l (p :: items) = dictUpdate (dictInsert l p.1 p.2) items := rfl

/-- `dict.update` semantics for duplicate-free items: updated keys take
their new values, all other keys keep their old bindings. -/
theorem alookup_dictUpdate {α β : Type} [DecidableEq α] (items : List (α × β)) :
    ∀ (l : List (α × β)) (x : α), (items.map Prod.fst).Nodup →
    alookup (dictUpdate l items) x = (alookup items x).elim (alookup l x) some := by
  induction items with
  | nil => intro l x h; rfl
  | cons p rest ih =>
    intro l x h
    simp only [List.map_cons, List.nodup_cons] at h
    rw [dictUpdate_cons, ih _ x h.2, alookup]
    by_cases hx : p.1 = x
    · rw [if_pos hx]
      have hrest : alookup rest x = none := by
        apply alookup_eq_none_of_not_mem
        rw [← hx]
        exact h.1
      rw [hrest, alookup_dictInsert, if_pos hx.symm]
      try rfl
    · rw [if_neg hx]
      cases hrx : alookup rest x
      · rw [alookup_dictInsert, if_neg (fun hc => hx hc.symm)]
        try rfl
      · rfl

/-- The threshold filter's effect on a lookup over duplicate-free facts. -/
theorem alookup_filter_gt (thr : ℚ) (l : List (Evidence × ℚ)) (x : Evidence)
    (hnd : (l.map Prod.fst).Nodup) :
    alookup (l.filter (fun p => p.2 > thr)) x =
      (alookup l x).elim none (fun s => if s > thr then some s else none) := by
  induction l with
  | nil => rfl
  | cons p rest ih =>
    simp only [List.map_cons, List.nodup_cons] at hnd
    rw [List.filter_cons, alookup]
    by_cases hp : p.2 > thr
    · rw [if_pos (by simpa using hp)]
      rw [alookup]
      by_cases hx : p.1 = x
      · rw [if_pos hx, if_pos hx]
        simp [hp]
      · rw [if_neg hx, if_neg hx]
        exact ih hnd.2
    · rw [if_neg (by simpa using hp)]
      by_cases hx : p.1 = x
      · rw [if_pos hx]
        have hnone : alookup (rest.filter (fun p => p.2 > thr)) x = none := by
          apply alookup_eq_none_of_not_mem
          intro hmem
          apply hnd.1
          obtain ⟨q, hq, hqe⟩ := List.mem_map.mp hmem
          rw [← hx] at hqe
          exact hqe ▸ List.mem_map.mpr ⟨q, List.mem_of_mem_filter hq, rfl⟩
        rw [hnone]
        simp [hp]
      · rw [if_neg hx]
        exact ih hnd.2

/-- C6: `filter_facts(facts)` merges into Knowledge exactly the items whose
score exceeds `fact_threshold` (refreshing present keys), leaves every other
binding unchanged, never removes a key — the key set is non-shrinking — and
returns the full scored input set. -/
theorem claim_C6_filter_facts (thr : ℚ) (kn facts : List (Evidence × ℚ))
    (hnd : (facts.map Prod.fst).Nodup) :
    ((filter_facts thr kn facts).2 = facts) ∧
    (∀ e s, alookup facts e = some s →
      alookup (filter_facts thr kn facts).1 e =
        if s > thr then some s else alookup kn e) ∧
    (∀ e, alookup facts e = none →
      alookup (filter_facts thr kn facts).1 e = alookup kn e) ∧
    (∀ e, (alookup kn e).isSome → (alookup (filter_facts thr kn facts).1 e).isSome) := by
  have hfnd : (((facts.filter (fun x => x.2 > thr)).map Prod.fst)).Nodup :=
    List.Nodup.sublist (List.Sublist.map Prod.fst (List.filter_sublist facts)) hnd
  have hmain : ∀ e, alookup (dictUpdate kn (facts.filter (fun x => x.2 > thr))) e =
      (alookup (facts.filter (fun x => x.2 > thr)) e).elim (alookup kn e) some :=
    fun e => alookup_dictUpdate (facts.filter (fun x => x.2 > thr)) kn e hfnd
  refine ⟨rfl, ?_, ?_, ?_⟩
  · intro e s hs
    show alookup (dictUpdate kn (facts.filter (fun x => x.2 > thr))) e = _
    rw [hmain e, alookup_filter_gt thr facts e hnd, hs]
    by_cases h : s > thr
    · simp [h]
    · simp [h]
  · intro e he
    show alookup (dictUpdate kn (facts.filter (fun x => x.2 > thr))) e = _
    rw [hmain e, alookup_filter_gt thr facts e hnd, he]
    rfl
  · intro e hsome
    show (alookup (dictUpdate kn (facts.filter (fun x => x.2 > thr))) e).isSome
    rw [hmain e]
    cases halt : alookup (facts.filter (fun x => x.2 > thr)) e
    · simpa using hsome
    · simp

/-- Witness for C6: the theorem applied to a concrete two-item scored set
with threshold `0.99`; the returned set is the full input. -/
theorem claim_C6_filter_facts_witness :
    (([(exEvA, (1 : ℚ)), (exEvB, 1/2)].map Prod.fst).Nodup) ∧
    ((filter_facts (99/100) [] [(exEvA, (1 : ℚ)), (exEvB, 1/2)]).2 =
      [(exEvA, (1 : ℚ)), (exEvB, 1/2)]) :=
  ⟨by decide, (claim_C6_filter_facts (99/100) [] [(exEvA, 1), (exEvB, 1/2)] (by decide)).1⟩

/-!
### The relation-description table (C7)
-/

/-- A successful run of the relation-table fold preserves existing bindings
and records each processed fact's kind pair. -/
theorem relFold_ok (l : List Fact) :
    ∀ table t, List.foldlM relStep table l = Except.ok t →
    (∀ r p, alookup table r = some p → alookup t r = some p) ∧
    (∀ f, f ∈ l → alookup t f.relation = some (f.e1.kind, f.e2.kind)) := by
  induction l with
  | nil =>
    intro table t ht
    simp only [List.foldlM_nil] at ht
    cases ht
    exact ⟨fun r p h => h, fun f hf => absurd hf (List.not_mem_nil f)⟩
  | cons f fs ih =>
    intro table t ht
    rw [List.foldlM_cons] at ht
    cases hstep : relStep table f with
    | error e =>
      rw [hstep] at ht
      have hbad : (Except.error e : Except String (List (String × String × String)))
          = Except.ok t := ht
      cases hbad
    | ok table2 =>
      rw [hstep] at ht
      have ht2 : List.foldlM relStep table2 fs = Except.ok t := ht
      obtain ⟨hpres, hmem⟩ := ih table2 t ht2
      rw [relStep] at hstep
      cases halook : alookup table f.relation with
      | some p =>
        simp only [halook] at hstep
        by_cases hne : p ≠ (f.e1.kind, f.e2.kind)
        · rw [if_pos hne] at hstep
          cases hstep
        · rw [if_neg hne] at hstep
          push_neg at hne
          have htab2 : table2 = dictInsert table f.relation (f.e1.kind, f.e2.kind) :=
            (Except.ok.inj hstep).symm
          subst htab2
          refine ⟨?_, ?_⟩
          · intro r q hq
            apply hpres
            rw [alookup_dictInsert]
            by_cases hr : r = f.relation
            · subst hr
              rw [if_pos rfl, ← hne, ← halook, hq]
            · rw [if_neg hr]
              exact hq
          · intro g hg
            rcases List.mem_cons.mp hg with hgf | hgf
            · subst hgf
              apply hpres
              rw [alookup_dictInsert, if_pos rfl]
            · exact hmem g hgf
      | none =>
        simp only [halook] at hstep
        have htab2 : table2 = dictInsert table f.relation (f.e1.kind, f.e2.kind) :=
          (Except.ok.inj hstep).symm
        subst htab2
        refine ⟨?_, ?_⟩
        · intro r q hq
          apply hpres
          rw [alookup_dictInsert]
          by_cases hr : r = f.relation
          · subst hr
            rw [halook] at hq
            cases hq
          · rw [if_neg hr]
            exact hq
        · intro g hg
          rcases List.mem_cons.mp hg with hgf | hgf
          · subst hgf
            apply hpres
            rw [alookup_dictInsert, if_pos rfl]
          · exact hmem g hgf

/-- With unambiguous seed facts the fold cannot fail. -/
theorem relFold_ok_of_consistent (l0 : List Fact)
    (hcons : ∀ f ∈ l0, ∀ g ∈ l0, f.relation = g.relation →
      (f.e1.kind, f.e2.kind) = (g.e1.kind, g.e2.kind)) :
    ∀ l, (∀ f ∈ l, f ∈ l0) →
    ∀ table, (∀ r p, alookup table r = some p →
        ∃ f ∈ l0, f.relation = r ∧ p = (f.e1.kind, f.e2.kind)) →
    ∃ t, List.foldlM relStep table l = Except.ok t := by
  intro l
  induction l with
  | nil =>
    intro hsub table hinv
    exact ⟨table, rfl⟩
  | cons f fs ih =>
    intro hsub table hinv
    rw [List.foldlM_cons]
    have hf0 : f ∈ l0 := hsub f (List.mem_cons_self ..)
    have hstep : relStep table f =
        Except.ok (dictInsert table f.relation (f.e1.kind, f.e2.kind)) := by
      rw [relStep]
      cases halook : alookup table f.relation with
      | none => rfl
      | some p =>
        obtain ⟨g, hg, hgr, hgp⟩ := hinv _ _ halook
        have hpk : p = (f.e1.kind, f.e2.kind) := by
          rw [hgp]
          exact hcons g hg f hf0 hgr
        subst hpk
        simp
    rw [hstep]
    show ∃ t, List.foldlM relStep (dictInsert table f.relation (f.e1.kind, f.e2.kind)) fs
      = Except.ok t
    apply ih (fun g hg => hsub g (List.mem_cons_of_mem f hg))
    intro r p hp
    rw [alookup_dictInsert] at hp
    by_cases hr : r = f.relation
    · rw [if_pos hr] at hp
      exact ⟨f, hf0, by rw [hr], (Option.some.inj hp).symm⟩
    · rw [if_neg hr] at hp
      exact hinv r p hp

/-- C7: `BootstrappedIEPipeline` construction fails with `ValueError` if and
only if two seed facts carry the same relation label with different entity
kind pairs; otherwise the relation table maps every seed relation label to
its unique kind pair. -/
theorem claim_C7_relations_table (seed_facts : List Fact) :
    ((∃ msg, buildRelations seed_facts = Except.error msg) ↔
      (∃ f ∈ seed_facts, ∃ g ∈ seed_facts, f.relation = g.relation ∧
        (f.e1.kind, f.e2.kind) ≠ (g.e1.kind, g.e2.kind))) ∧
    (∀ t, buildRelations seed_facts = Except.ok t →
      ∀ f ∈ seed_facts, alookup t f.relation = some (f.e1.kind, f.e2.kind)) := by
  constructor
  · constructor
    · rintro ⟨msg, hmsg⟩
      by_contra hnc
      push_neg at hnc
      obtain ⟨t, ht⟩ := relFold_ok_of_consistent seed_facts hnc seed_facts
        (fun f hf => hf) []
        (fun r p hp => by rw [alookup] at hp; cases hp)
      rw [buildRelations, ht] at hmsg
      cases hmsg
    · rintro ⟨f, hf, g, hg, hrel, hkinds⟩
      cases hbr : buildRelations seed_facts with
      | error msg => exact ⟨msg, rfl⟩
      | ok t =>
        rw [buildRelations] at hbr
        have h1 := (relFold_ok seed_facts [] t hbr).2 f hf
        have h2 := (relFold_ok seed_facts [] t hbr).2 g hg
        rw [hrel, h2] at h1
        exact absurd (Option.some.inj h1).symm hkinds
  · intro t ht f hf
    rw [buildRelations] at ht
    exact (relFold_ok seed_facts [] t ht).2 f hf

/-- Witness for C7: a concrete ambiguous seed set (same relation label
`"works"`, kind pairs `(person, location)` and `(location, location)`)
aborts construction with an error. -/
theorem claim_C7_relations_table_witness :
    (∃ f ∈ [exFact, exFactConflict], ∃ g ∈ [exFact, exFactConflict],
      f.relation = g.relation ∧ (f.e1.kind, f.e2.kind) ≠ (g.e1.kind, g.e2.kind)) ∧
    (∃ msg, buildRelations [exFact, exFactConflict] = Except.error msg) :=
  ⟨⟨exFact, by decide, exFactConflict, by decide, by decide, by decide⟩,
    (claim_C7_relations_table [exFact, exFactConflict]).1.mpr
      ⟨exFact, by decide, exFactConflict, by decide, by decide, by decide⟩⟩

/-!
### The `Evidence` invariant (C5)
-/

/-- Membership in an occurrence-index list built as
`enum → filter → map fst`: the index is in range and the element at it
satisfies the filter predicate. -/
theorem mem_enum_filter_map {α : Type} (P : Nat × α → Bool) (l : List α) (dflt : α) (i : Nat)
    (h : i ∈ (l.enum.filter P).map Prod.fst) :
    i < l.length ∧ P (i, l.getD i dflt) = true := by
  obtain ⟨p, hp, hfst⟩ := List.mem_map.mp h
  obtain ⟨hpe, hP⟩ := List.mem_filter.mp hp
  have hget : l[p.1]? = some p.2 := List.mem_enum_iff_getElem?.mp hpe
  have hlt : p.1 < l.length := by
    by_contra hge
    rw [List.getElem?_eq_none (by omega)] at hget
    cases hget
  have hgd : l.getD p.1 dflt = p.2 := by
    rw [List.getD_eq_getElem?_getD, hget]
    rfl
  subst hfst
  exact ⟨hlt, by rw [hgd]; exact hP⟩

/-- C5: every `Evidence` the pipeline stores satisfies `evidenceInvariant`:
seed evidences (`__init__`) have segment and both occurrence indices `None`;
evidences built in `start()` and in `extract_facts()` have all three set,
in range, with the occurrence kind/key matching `fact.e1`/`fact.e2` (for
`extract_facts` because `db.get_entity(kind, key)` returns the entity with
exactly those two fields); `generate_questions` only forwards existing
items. -/
theorem claim_C5_evidence_invariant
    (seed_facts : List Fact)
    (know : List (Evidence × ℚ))
    (swbe : Entity → Entity → List TextSegment)
    (rel lkind rkind : String)
    (swbk : String → String → List TextSegment)
    (get_entity : String → String → Entity)
    (hge : ∀ k q, (get_entity k q).kind = k ∧ (get_entity k q).key = q)
    (answered : Evidence → Bool) (evidence : List (Evidence × ℚ)) :
    (∀ x ∈ seedKnowledge seed_facts, evidenceInvariant x.1) ∧
    (∀ x ∈ startEvidences know swbe, evidenceInvariant x.1) ∧
    (∀ e ∈ extractFactsEvidences rel lkind rkind swbk get_entity, evidenceInvariant e) ∧
    (∀ x ∈ generate_questions answered evidence, x ∈ evidence) := by
  refine ⟨?_, ?_, ?_, ?_⟩
  · intro x hx
    obtain ⟨f, hf, rfl⟩ := List.mem_map.mp hx
    exact ⟨by simp, by simp, fun i hi => Option.noConfusion hi,
      fun i hi => Option.noConfusion hi⟩
  · intro x hx
    obtain ⟨fact, hfact, hx2⟩ := List.mem_flatMap.mp hx
    obtain ⟨segment, hseg, hx3⟩ := List.mem_flatMap.mp hx2
    obtain ⟨p, hpmem, rfl⟩ := List.mem_map.mp hx3
    obtain ⟨p1, p2⟩ := p
    rw [entity_occurrence_pairs] at hpmem
    have hprod := (List.mem_filter.mp hpmem).1
    obtain ⟨hleft, hright⟩ := List.mem_product.mp hprod
    obtain ⟨hlt1, hP1⟩ := mem_enum_filter_map _ _ default _ hleft
    obtain ⟨hlt2, hP2⟩ := mem_enum_filter_map _ _ default _ hright
    rw [Bool.and_eq_true, beq_iff_eq, beq_iff_eq] at hP1 hP2
    refine ⟨by simp, by simp, ?_, ?_⟩
    · intro i hi
      obtain rfl : p1 = i := Option.some.inj hi
      exact ⟨segment, rfl, hlt1, hP1.2, hP1.1⟩
    · intro i hi
      obtain rfl : p2 = i := Option.some.inj hi
      exact ⟨segment, rfl, hlt2, hP2.2, hP2.1⟩
  · intro e he
    obtain ⟨segment, hseg, he2⟩ := List.mem_flatMap.mp he
    obtain ⟨p, hpmem, rfl⟩ := List.mem_map.mp he2
    obtain ⟨p1, p2⟩ := p
    rw [kind_occurrence_pairs] at hpmem
    have hprod := (List.mem_filter.mp hpmem).1
    obtain ⟨hleft, hright⟩ := List.mem_product.mp hprod
    obtain ⟨hlt1, _⟩ := mem_enum_filter_map _ _ default _ hleft
    obtain ⟨hlt2, _⟩ := mem_enum_filter_map _ _ default _ hright
    refine ⟨by simp, by simp, ?_, ?_⟩
    · intro i hi
      obtain rfl : p1 = i := Option.some.inj hi
      exact ⟨segment, rfl, hlt1,
        (hge (segment.entities.getD p1 default).kind
          (segment.entities.getD p1 default).key).1.symm,
        (hge (segment.entities.getD p1 default).kind
          (segment.entities.getD p1 default).key).2.symm⟩
    · intro i hi
      obtain rfl : p2 = i := Option.some.inj hi
      exact ⟨segment, rfl, hlt2,
        (hge (segment.entities.getD p2 default).kind
          (segment.entities.getD p2 default).key).1.symm,
        (hge (segment.entities.getD p2 default).kind
          (segment.entities.getD p2 default).key).2.symm⟩
  · intro x hx
    exact (List.mem_filter.mp hx).1

/-- Witness for C5 on concrete inputs: the example entity store returns the
requested kind and key, and the invariant holds for the evidences built
from one seed fact and the two-occurrence example segment. -/
theorem claim_C5_evidence_invariant_witness :
    (∀ k q, (exGetEntity k q).kind = k ∧ (exGetEntity k q).key = q) ∧
    (∀ x ∈ seedKnowledge [exFact], evidenceInvariant x.1) ∧
    (∀ x ∈ startEvidences (seedKnowledge [exFact]) (fun e1 e2 => [exSeg]),
      evidenceInvariant x.1) ∧
    (∀ e ∈ extractFactsEvidences "works" "person" "location"
        (fun a b => [exSeg]) exGetEntity, evidenceInvariant e) ∧
    (∀ x ∈ generate_questions (fun e => false) (seedKnowledge [exFact]),
      x ∈ seedKnowledge [exFact]) := by
  have h := claim_C5_evidence_invariant [exFact] (seedKnowledge [exFact])
    (fun e1 e2 => [exSeg]) "works" "person" "location" (fun a b => [exSeg])
    exGetEntity (fun k q => ⟨rfl, rfl⟩) (fun e => false) (seedKnowledge [exFact])
  exact ⟨fun k q => ⟨rfl, rfl⟩, h.1, h.2.1, h.2.2.1, h.2.2.2⟩

end Iepy
